import Mathlib

/-!
Verification of the indradb-sled storage engine core.

The development shallowly embeds the Rust sources under src/: each sled
tree becomes an association list, each manager becomes a pure function on
the holder state, and the transaction surface is built from the managers
exactly as in src/src/transaction.rs.  UUIDs, interned identifiers and
JSON values enter keys only through an injective codec, so they are
modelled by their identities (as naturals).
-/

namespace IndradbSled

/-- UUIDs are 128-bit identities; only equality and key layout matter here. -/
abbrev Uuid := Nat

/-- Interned identifiers (vertex/edge labels, property names). -/
abbrev Identifier := Nat

/-- JSON property values; keys use an equality-preserving canonical form. -/
abbrev JsonValue := Nat

/-- A vertex: 128-bit id plus a typed label, as in indradb. -/
structure Vertex where
  id : Uuid
  t : Identifier
deriving DecidableEq, Repr

/-- A directed typed edge (outbound, label, inbound), as in indradb. -/
structure Edge where
  outbound_id : Uuid
  t : Identifier
  inbound_id : Uuid
deriving DecidableEq, Repr

/-- src/src/lib.rs reverse_edge: swap outbound and inbound, keep the label. -/
def reverse_edge (edge : Edge) : Edge :=
  { outbound_id := edge.inbound_id, t := edge.t, inbound_id := edge.outbound_id }

/-- A sled tree: an ordered keyspace with unique keys, modelled as an
association list queried by first match. -/
abbrev Tree (K V : Type) := List (K × V)

/-- Point lookup (sled tree.get). -/
def tget {K V : Type} [DecidableEq K] : Tree K V → K → Option V
  | [], _ => none
  | (k', v) :: rest, k => if k' = k then some v else tget rest k

/-- Key removal (sled tree.remove). -/
def tremove {K V : Type} [DecidableEq K] (t : Tree K V) (k : K) : Tree K V :=
  t.filter (fun p => !(decide (p.1 = k)))

/-- Key insertion with overwrite (sled tree.insert). -/
def tinsert {K V : Type} [DecidableEq K] (t : Tree K V) (k : K) (v : V) : Tree K V :=
  (k, v) :: tremove t k

/-- Key membership (sled tree.contains_key). -/
def tcontains {K V : Type} [DecidableEq K] (t : Tree K V) (k : K) : Bool :=
  (tget t k).isSome

/-- The holder of all trees (src/src/datastore.rs SledHolder, with the
value-index and metadata trees the transaction layer opens): the default
keyspace holds vertices, plus the named trees, plus the metadata manager's
in-memory registry of indexed property names. -/
structure SledHolder where
  db : Tree Uuid Identifier
  edges : Tree Edge Unit
  edge_ranges : Tree Edge Unit
  reversed_edge_ranges : Tree Edge Unit
  vertex_properties : Tree (Uuid × Identifier) JsonValue
  vertex_property_values : Tree (Identifier × JsonValue × Uuid) JsonValue
  edge_properties : Tree (Edge × Identifier) JsonValue
  edge_property_values : Tree (Identifier × JsonValue × Edge) JsonValue
  metadata : Tree Identifier Unit
  indexed_properties : List Identifier
deriving DecidableEq, Repr

/-- A freshly opened store: every tree empty, no indexed property names. -/
def emptyHolder : SledHolder :=
  { db := [], edges := [], edge_ranges := [], reversed_edge_ranges := [],
    vertex_properties := [], vertex_property_values := [],
    edge_properties := [], edge_property_values := [],
    metadata := [], indexed_properties := [] }

namespace VertexPropertyManager

/-- src/src/managers/vertex_property_manager.rs get. -/
def get (s : SledHolder) (vertex_id : Uuid) (name : Identifier) : Option JsonValue :=
  tget s.vertex_properties (vertex_id, name)

/-- src/src/managers/vertex_property_manager.rs set: read the old primary
value; if present remove its value-index key; insert the new primary entry;
insert the new value-index entry (keyed name, value, owner). -/
def set (s : SledHolder) (vertex_id : Uuid) (name : Identifier) (value : JsonValue) :
    SledHolder :=
  let s1 :=
    match tget s.vertex_properties (vertex_id, name) with
    | some old =>
        { s with vertex_property_values :=
            tremove s.vertex_property_values (name, old, vertex_id) }
    | none => s
  let s2 :=
    { s1 with vertex_properties := tinsert s1.vertex_properties (vertex_id, name) value }
  { s2 with vertex_property_values :=
      tinsert s2.vertex_property_values (name, value, vertex_id) value }

/-- src/src/managers/vertex_property_manager.rs delete: read the old value,
remove the primary entry, and if an old value existed remove its value-index
entry. -/
def delete (s : SledHolder) (vertex_id : Uuid) (name : Identifier) : SledHolder :=
  let old_value := tget s.vertex_properties (vertex_id, name)
  let s1 := { s with vertex_properties := tremove s.vertex_properties (vertex_id, name) }
  match old_value with
  | some old =>
      { s1 with vertex_property_values :=
          tremove s1.vertex_property_values (name, old, vertex_id) }
  | none => s1

/-- src/src/managers/vertex_property_manager.rs iterate_for_owner: scan the
primary tree for entries whose leading UUID component is the owner. -/
def iterate_for_owner (s : SledHolder) (vertex_id : Uuid) :
    List ((Uuid × Identifier) × JsonValue) :=
  s.vertex_properties.filter (fun p => decide (p.1.1 = vertex_id))

/-- src/src/managers/vertex_property_manager.rs iterate_for_property_name:
scan the value-index tree for entries whose leading identifier is the name,
yielding the owner UUID from each key. -/
def iterate_for_property_name (s : SledHolder) (name : Identifier) : List Uuid :=
  (s.vertex_property_values.filter (fun p => decide (p.1.1 = name))).map
    (fun p => p.1.2.2)

/-- src/src/managers/vertex_property_manager.rs
iterate_for_property_name_and_value: scan the value-index tree under the
(name, value) key pair, yielding owners. -/
def iterate_for_property_name_and_value (s : SledHolder) (name : Identifier)
    (value : JsonValue) : List Uuid :=
  (s.vertex_property_values.filter
      (fun p => decide (p.1.1 = name) && decide (p.1.2.1 = value))).map
    (fun p => p.1.2.2)

end VertexPropertyManager

namespace EdgePropertyManager

/-- src/src/managers/edge_property_manager.rs get. -/
def get (s : SledHolder) (edge : Edge) (name : Identifier) : Option JsonValue :=
  tget s.edge_properties (edge, name)

/-- src/src/managers/edge_property_manager.rs set: read old primary value,
remove its value-index key if present, insert new primary, insert new
value-index entry (keyed name, value, then the full edge triple). -/
def set (s : SledHolder) (edge : Edge) (name : Identifier) (value : JsonValue) :
    SledHolder :=
  let s1 :=
    match tget s.edge_properties (edge, name) with
    | some old =>
        { s with edge_property_values := tremove s.edge_property_values (name, old, edge) }
    | none => s
  let s2 := { s1 with edge_properties := tinsert s1.edge_properties (edge, name) value }
  { s2 with edge_property_values :=
      tinsert s2.edge_property_values (name, value, edge) value }

/-- src/src/managers/edge_property_manager.rs delete. -/
def delete (s : SledHolder) (edge : Edge) (name : Identifier) : SledHolder :=
  let old_value := tget s.edge_properties (edge, name)
  let s1 := { s with edge_properties := tremove s.edge_properties (edge, name) }
  match old_value with
  | some old =>
      { s1 with edge_property_values :=
          tremove s1.edge_property_values (name, old, edge) }
  | none => s1

/-- src/src/managers/edge_property_manager.rs iterate_for_owner: scan the
primary tree under the owner edge's triple. -/
def iterate_for_owner (s : SledHolder) (edge : Edge) :
    List ((Edge × Identifier) × JsonValue) :=
  s.edge_properties.filter (fun p => decide (p.1.1 = edge))

/-- src/src/managers/edge_property_manager.rs iterate_for_property_name. -/
def iterate_for_property_name (s : SledHolder) (name : Identifier) : List Edge :=
  (s.edge_property_values.filter (fun p => decide (p.1.1 = name))).map
    (fun p => p.1.2.2)

/-- src/src/managers/edge_property_manager.rs
iterate_for_property_name_and_value. -/
def iterate_for_property_name_and_value (s : SledHolder) (name : Identifier)
    (value : JsonValue) : List Edge :=
  (s.edge_property_values.filter
      (fun p => decide (p.1.1 = name) && decide (p.1.2.1 = value))).map
    (fun p => p.1.2.2)

end EdgePropertyManager

namespace EdgeRangeManager

/-- src/src/managers/edge_range_manager.rs contains on the forward instance
(tree edge_ranges): key membership of (outbound, label, inbound). -/
def contains (s : SledHolder) (edge : Edge) : Bool :=
  tcontains s.edge_ranges edge

end EdgeRangeManager

namespace EdgeManager

/-- src/src/managers/edge_manager.rs count: full iteration of the edges tree. -/
def count (s : SledHolder) : Nat :=
  s.edges.length

/-- src/src/managers/edge_manager.rs set: insert the edge key into the edges
tree, the forward range entry, and the reversed range entry built by
reverse_edge. -/
def set (s : SledHolder) (edge : Edge) : SledHolder :=
  let s1 := { s with edges := tinsert s.edges edge () }
  let s2 := { s1 with edge_ranges := tinsert s1.edge_ranges edge () }
  { s2 with reversed_edge_ranges :=
      tinsert s2.reversed_edge_ranges (reverse_edge edge) () }

/-- src/src/managers/edge_manager.rs delete: remove the edge key, the forward
range entry, the reversed range entry, then iterate the edge-property tree
for the owner and delete each property (with value-index cleanup). -/
def delete (s : SledHolder) (edge : Edge) : SledHolder :=
  let s1 := { s with edges := tremove s.edges edge }
  let s2 := { s1 with edge_ranges := tremove s1.edge_ranges edge }
  let s3 :=
    { s2 with reversed_edge_ranges := tremove s2.reversed_edge_ranges (reverse_edge edge) }
  let owned := EdgePropertyManager.iterate_for_owner s3 edge
  owned.foldl (fun acc p => EdgePropertyManager.delete acc p.1.1 p.1.2) s3

end EdgeManager

namespace VertexManager

/-- src/src/managers/vertex_manager.rs count. -/
def count (s : SledHolder) : Nat :=
  s.db.length

/-- src/src/managers/vertex_manager.rs exists: key membership of Uuid(id) in
the default tree. -/
def existsId (s : SledHolder) (id : Uuid) : Bool :=
  (tget s.db id).isSome

/-- src/src/managers/vertex_manager.rs get. -/
def get (s : SledHolder) (id : Uuid) : Option Identifier :=
  tget s.db id

/-- src/src/managers/vertex_manager.rs create: conditional insert, false and
no write when the id already exists. -/
def create (s : SledHolder) (vertex : Vertex) : Bool × SledHolder :=
  if tcontains s.db vertex.id then (false, s)
  else (true, { s with db := tinsert s.db vertex.id vertex.t })

/-- First loop of src/src/managers/vertex_manager.rs delete: for every
property owned by the id, delete it via VertexPropertyManager. -/
def deleteVertexProps (id : Uuid) (t : SledHolder) : SledHolder :=
  (VertexPropertyManager.iterate_for_owner t id).foldl
    (fun acc p => VertexPropertyManager.delete acc p.1.1 p.1.2) t

/-- Second loop of src/src/managers/vertex_manager.rs delete: scan the
forward edge-range tree under prefix Uuid(id) and delete each found edge
via EdgeManager. -/
def deleteOutgoingEdges (id : Uuid) (t : SledHolder) : SledHolder :=
  (t.edge_ranges.filter (fun p => decide (p.1.outbound_id = id))).foldl
    (fun acc p => EdgeManager.delete acc p.1) t

/-- Third loop of src/src/managers/vertex_manager.rs delete: scan the
reversed edge-range tree under prefix Uuid(id); each key decodes as
(inbound, label, outbound), so the edge deleted via EdgeManager is its
reversal. -/
def deleteIncomingEdges (id : Uuid) (t : SledHolder) : SledHolder :=
  (t.reversed_edge_ranges.filter (fun p => decide (p.1.outbound_id = id))).foldl
    (fun acc p => EdgeManager.delete acc (reverse_edge p.1)) t

/-- src/src/managers/vertex_manager.rs delete: remove the vertex row, then
run the three cascade loops in order. -/
def delete (s : SledHolder) (id : Uuid) : SledHolder :=
  deleteIncomingEdges id
    (deleteOutgoingEdges id (deleteVertexProps id { s with db := tremove s.db id }))

end VertexManager

/-- The forward/reversed range agreement the engine maintains: the forward
range tree holds an edge exactly when the reversed range tree holds its
reversal (spec invariant 1). -/
def RangeConsistent (s : SledHolder) : Prop :=
  ∀ e : Edge, tcontains s.edge_ranges e =
    tcontains s.reversed_edge_ranges (reverse_edge e)

/-- Every stored edge property belongs to an edge present in the forward
range tree (the store never holds properties of absent edges). -/
def EdgePropsOwned (s : SledHolder) : Prop :=
  ∀ (e : Edge) (n : Identifier), (tget s.edge_properties (e, n)).isSome = true →
    tcontains s.edge_ranges e = true

namespace MetaDataManager

/-- src/src/managers/metadata.rs is_indexed: membership in the in-memory set. -/
def is_indexed (s : SledHolder) (prop : Identifier) : Bool :=
  s.indexed_properties.contains prop

/-- src/src/managers/metadata.rs sync: erase the registry prefix in the
metadata tree and rewrite one entry per indexed name. -/
def sync (s : SledHolder) : SledHolder :=
  { s with metadata := s.indexed_properties.map (fun n => (n, ())) }

/-- src/src/managers/metadata.rs add_index: no-op when the name is already
registered, otherwise insert into the in-memory set and sync. -/
def add_index (s : SledHolder) (prop : Identifier) : SledHolder :=
  if s.indexed_properties.contains prop then s
  else sync { s with indexed_properties := prop :: s.indexed_properties }

end MetaDataManager

/-- An item of a bulk insert (indradb BulkInsertItem). -/
inductive BulkInsertItem where
  | vertex (v : Vertex)
  | edge (e : Edge)
  | vertexProperty (id : Uuid) (name : Identifier) (value : JsonValue)
  | edgeProperty (e : Edge) (name : Identifier) (value : JsonValue)
deriving DecidableEq, Repr

/-- A pending sled batch for one tree: queued inserts, applied in order. -/
abbrev Batch (K V : Type) := List (K × V)

/-- Applying a batch to a tree performs its queued inserts in order. -/
def applyBatch {K V : Type} [DecidableEq K] (t : Tree K V) (b : Batch K V) : Tree K V :=
  b.foldl (fun acc p => tinsert acc p.1 p.2) t

/-- src/src/transaction.rs IndraSledBatch: the four per-tree batches a bulk
insert accumulates. -/
structure IndraSledBatch where
  vertex_creation_batch : Batch Uuid Identifier
  edge_creation_batch : Batch Edge Unit
  edge_range_creation_batch : Batch Edge Unit
  edge_range_rev_creation_batch : Batch Edge Unit
deriving DecidableEq, Repr

/-- src/src/transaction.rs IndraSledBatch::apply: apply the vertex batch to
the default tree, then the edges batch, then the forward range batch, then
the reversed range batch. -/
def IndraSledBatch.apply (b : IndraSledBatch) (s : SledHolder) : SledHolder :=
  let s1 := { s with db := applyBatch s.db b.vertex_creation_batch }
  let s2 := { s1 with edges := applyBatch s1.edges b.edge_creation_batch }
  let s3 := { s2 with edge_ranges := applyBatch s2.edge_ranges b.edge_range_creation_batch }
  { s3 with reversed_edge_ranges :=
      applyBatch s3.reversed_edge_ranges b.edge_range_rev_creation_batch }

namespace SledTransaction

/-- src/src/transaction.rs vertex_count. -/
def vertex_count (s : SledHolder) : Nat :=
  VertexManager.count s

/-- src/src/transaction.rs edge_count. -/
def edge_count (s : SledHolder) : Nat :=
  EdgeManager.count s

/-- src/src/transaction.rs all_edges reads the forward edge-range tree.
Modelled from the spec: the EdgeRangeManager iterate_for_all it calls is
absent from src/; per the spec it is a full scan of the forward range tree
decoding each key to an edge. -/
def all_edges (s : SledHolder) : List Edge :=
  s.edge_ranges.map (fun p => p.1)

/-- src/src/transaction.rs create_vertex. -/
def create_vertex (s : SledHolder) (vertex : Vertex) : Bool × SledHolder :=
  VertexManager.create s vertex

/-- src/src/transaction.rs create_edge: check both endpoints in the vertex
tree; if either is missing return false without writing, else EdgeManager
set and true. -/
def create_edge (s : SledHolder) (edge : Edge) : Bool × SledHolder :=
  let outbound_present := VertexManager.existsId s edge.outbound_id
  let inbound_present := VertexManager.existsId s edge.inbound_id
  if !outbound_present || !inbound_present then (false, s)
  else (true, EdgeManager.set s edge)

/-- src/src/transaction.rs delete_vertices: VertexManager delete per listed
vertex id, in order. -/
def delete_vertices (s : SledHolder) (vertices : List Vertex) : SledHolder :=
  vertices.foldl (fun acc v => VertexManager.delete acc v.id) s

/-- src/src/transaction.rs delete_edges: for each listed edge, delete via
EdgeManager only when its outbound vertex currently exists, else skip. -/
def delete_edges (s : SledHolder) (edges : List Edge) : SledHolder :=
  edges.foldl
    (fun acc item =>
      if (VertexManager.get acc item.outbound_id).isSome then EdgeManager.delete acc item
      else acc)
    s

/-- src/src/transaction.rs index_property: register the name in the metadata
manager. -/
def index_property (s : SledHolder) (name : Identifier) : SledHolder :=
  MetaDataManager.add_index s name

/-- src/src/transaction.rs set_vertex_properties. -/
def set_vertex_properties (s : SledHolder) (vertices : List Uuid) (name : Identifier)
    (value : JsonValue) : SledHolder :=
  vertices.foldl (fun acc v => VertexPropertyManager.set acc v name value) s

/-- src/src/transaction.rs set_edge_properties. -/
def set_edge_properties (s : SledHolder) (edges : List Edge) (name : Identifier)
    (value : JsonValue) : SledHolder :=
  edges.foldl (fun acc e => EdgePropertyManager.set acc e name value) s

/-- src/src/transaction.rs vertex_ids_with_property: none unless the name is
registered as indexed, else the value-index scan. -/
def vertex_ids_with_property (s : SledHolder) (name : Identifier) : Option (List Uuid) :=
  if !MetaDataManager.is_indexed s name then none
  else some (VertexPropertyManager.iterate_for_property_name s name)

/-- src/src/transaction.rs vertex_ids_with_property_value. -/
def vertex_ids_with_property_value (s : SledHolder) (name : Identifier)
    (value : JsonValue) : Option (List Uuid) :=
  if !MetaDataManager.is_indexed s name then none
  else some (VertexPropertyManager.iterate_for_property_name_and_value s name value)

/-- src/src/transaction.rs edges_with_property. -/
def edges_with_property (s : SledHolder) (name : Identifier) : Option (List Edge) :=
  if !MetaDataManager.is_indexed s name then none
  else some (EdgePropertyManager.iterate_for_property_name s name)

/-- src/src/transaction.rs edges_with_property_value. -/
def edges_with_property_value (s : SledHolder) (name : Identifier) (value : JsonValue) :
    Option (List Edge) :=
  if !MetaDataManager.is_indexed s name then none
  else some (EdgePropertyManager.iterate_for_property_name_and_value s name value)

/-- src/src/managers/edge_range_manager.rs contains as called from
specific_edges, with the possibility of a storage error: the oracle err
marks the reads the store fails. -/
def containsFallible (s : SledHolder) (err : Edge → Bool) (e : Edge) : Except Unit Bool :=
  if err e then Except.error () else Except.ok (EdgeRangeManager.contains s e)

/-- src/src/transaction.rs specific_edges: keep each input edge whose
forward-range existence check returns Ok true, treating an Err result as
false, and wrap every survivor in Ok, preserving input order. -/
def specific_edges (s : SledHolder) (err : Edge → Bool) (edges : List Edge) :
    List (Except Unit Edge) :=
  (edges.filter
      (fun e =>
        match containsFallible s err e with
        | Except.ok r => r
        | Except.error _ => false)).map Except.ok

/-- src/src/transaction.rs bulk_insert accumulation pass: walk the items in
order, appending vertex creations to the vertex batch, edge creations (with
their two range entries, the reversed one via reverse_edge) to the three
edge batches, and queueing the property items; each batch and queue holds
its entries in item order. -/
def bulkAccum :
    List BulkInsertItem →
      IndraSledBatch × List (Uuid × Identifier × JsonValue) ×
        List (Edge × Identifier × JsonValue)
  | [] => (⟨[], [], [], []⟩, [], [])
  | BulkInsertItem.vertex v :: rest =>
      let (b, vp, ep) := bulkAccum rest
      ({ b with vertex_creation_batch := (v.id, v.t) :: b.vertex_creation_batch }, vp, ep)
  | BulkInsertItem.edge e :: rest =>
      let (b, vp, ep) := bulkAccum rest
      ({ b with
          edge_creation_batch := (e, ()) :: b.edge_creation_batch,
          edge_range_creation_batch := (e, ()) :: b.edge_range_creation_batch,
          edge_range_rev_creation_batch :=
            (reverse_edge e, ()) :: b.edge_range_rev_creation_batch },
        vp, ep)
  | BulkInsertItem.vertexProperty id p v :: rest =>
      let (b, vp, ep) := bulkAccum rest
      (b, (id, p, v) :: vp, ep)
  | BulkInsertItem.edgeProperty e p v :: rest =>
      let (b, vp, ep) := bulkAccum rest
      (b, vp, (e, p, v) :: ep)

/-- src/src/transaction.rs sync: metadata manager sync then an OKVS flush
(the flush is a persistence no-op on the logical state). -/
def sync (s : SledHolder) : SledHolder :=
  MetaDataManager.sync s

/-- src/src/transaction.rs bulk_insert: accumulate the per-tree batches and
property queues over the items, apply the batches (vertex tree, edges tree,
forward ranges, reversed ranges, in that order), then apply the vertex
property writes individually, then the edge property writes, then sync.
The vertex create_batch and edge-range set_batch helpers are absent from
src/; modelled from the spec as unconditional batch insertions. -/
def bulk_insert (s : SledHolder) (items : List BulkInsertItem) : SledHolder :=
  let acc := bulkAccum items
  let s1 := acc.1.apply s
  let s2 := acc.2.1.foldl
    (fun st q => VertexPropertyManager.set st q.1 q.2.1 q.2.2) s1
  let s3 := acc.2.2.foldl
    (fun st q => EdgePropertyManager.set st q.1 q.2.1 q.2.2) s2
  sync s3

end SledTransaction

/-- Modelled from the spec: the bulk insert protocol as the spec words it —
partition the items into vertex creations, edge creations, vertex
properties and edge properties; apply per-tree batches in the order vertex
tree, edges tree, edge_ranges tree, reversed_edge_ranges tree; then apply
the property writes individually; then sync. Stated separately from the
code's single-pass bulk_insert so the two can be compared. -/
def bulkInsertSpec (s : SledHolder) (items : List BulkInsertItem) : SledHolder :=
  let vs := items.filterMap
    (fun i => match i with | BulkInsertItem.vertex v => some (v.id, v.t) | _ => none)
  let es := items.filterMap
    (fun i => match i with | BulkInsertItem.edge e => some e | _ => none)
  let vps := items.filterMap
    (fun i => match i with
      | BulkInsertItem.vertexProperty id p v => some (id, p, v)
      | _ => none)
  let eps := items.filterMap
    (fun i => match i with
      | BulkInsertItem.edgeProperty e p v => some (e, p, v)
      | _ => none)
  let s1 := { s with db := applyBatch s.db vs }
  let s2 := { s1 with edges := applyBatch s1.edges (es.map (fun e => (e, ()))) }
  let s3 :=
    { s2 with edge_ranges := applyBatch s2.edge_ranges (es.map (fun e => (e, ()))) }
  let s4 :=
    { s3 with reversed_edge_ranges :=
        applyBatch s3.reversed_edge_ranges (es.map (fun e => (reverse_edge e, ()))) }
  let s5 := vps.foldl (fun st q => VertexPropertyManager.set st q.1 q.2.1 q.2.2) s4
  let s6 := eps.foldl (fun st q => EdgePropertyManager.set st q.1 q.2.1 q.2.2) s5
  SledTransaction.sync s6

/-- One EdgeManager write: a set or a delete, the operations claim C2
quantifies over. -/
inductive EdgeOp where
  | set (e : Edge)
  | del (e : Edge)
deriving DecidableEq, Repr

/-- Perform one EdgeManager operation on the holder. -/
def applyEdgeOp (s : SledHolder) (op : EdgeOp) : SledHolder :=
  match op with
  | EdgeOp.set e => EdgeManager.set s e
  | EdgeOp.del e => EdgeManager.delete s e

/-- Perform a sequence of EdgeManager operations in order. -/
def applyEdgeOps (s : SledHolder) (ops : List EdgeOp) : SledHolder :=
  ops.foldl applyEdgeOp s

/-- The store holding exactly the vertices (1, 10) and (2, 10), used by
several witnesses. -/
def twoVertexState : SledHolder :=
  (SledTransaction.create_vertex
    (SledTransaction.create_vertex emptyHolder ⟨1, 10⟩).2 ⟨2, 10⟩).2

@[simp]
theorem reverse_edge_reverse_edge (e : Edge) : reverse_edge (reverse_edge e) = e := by
  cases e; rfl

@[simp]
theorem reverse_edge_inj (a b : Edge) : reverse_edge a = reverse_edge b ↔ a = b := by
  constructor
  · intro h
    have := congrArg reverse_edge h
    simpa using this
  · intro h; rw [h]

@[simp]
theorem tget_nil {K V : Type} [DecidableEq K] (k : K) : tget ([] : Tree K V) k = none := rfl

@[simp]
theorem tget_tremove {K V : Type} [DecidableEq K] (t : Tree K V) (k k' : K) :
    tget (tremove t k) k' = if k' = k then none else tget t k' := by
  induction t with
  | nil => simp [tremove]
  | cons p rest ih =>
    cases p with
    | mk pk pv =>
      by_cases h1 : pk = k
      · have hdrop : tremove ((pk, pv) :: rest) k = tremove rest k := by
          simp [tremove, List.filter_cons, h1]
        rw [hdrop, ih]
        by_cases h2 : k' = k
        · simp [h2]
        · have hne : ¬ pk = k' := by
            intro hc; exact h2 (by rw [← hc, h1])
          simp [h2, tget, hne]
      · have hkeep : tremove ((pk, pv) :: rest) k = (pk, pv) :: tremove rest k := by
          simp [tremove, List.filter_cons, h1]
        rw [hkeep]
        by_cases h3 : pk = k'
        · have h2 : ¬ k' = k := by
            intro hc; exact h1 (by rw [h3, hc])
          simp [tget, h3, h2]
        · simp only [tget, h3, if_false]
          rw [ih]

@[simp]
theorem tget_tinsert {K V : Type} [DecidableEq K] (t : Tree K V) (k k' : K) (v : V) :
    tget (tinsert t k v) k' = if k = k' then some v else tget t k' := by
  by_cases h : k = k'
  · simp [tinsert, tget, h]
  · have h' : ¬ k' = k := fun hc => h hc.symm
    simp [tinsert, tget, h, h']

@[simp]
theorem tcontains_nil {K V : Type} [DecidableEq K] (k : K) :
    tcontains ([] : Tree K V) k = false := rfl

theorem tcontains_tinsert {K V : Type} [DecidableEq K] (t : Tree K V) (k k' : K) (v : V) :
    tcontains (tinsert t k v) k' = (decide (k = k') || tcontains t k') := by
  by_cases h : k = k' <;> simp [tcontains, h]

theorem tcontains_tremove {K V : Type} [DecidableEq K] (t : Tree K V) (k k' : K) :
    tcontains (tremove t k) k' = (!(decide (k' = k)) && tcontains t k') := by
  by_cases h : k' = k <;> simp [tcontains, h]

theorem tcontains_of_mem {K V : Type} [DecidableEq K] {t : Tree K V} {k : K} {v : V}
    (h : (k, v) ∈ t) : tcontains t k = true := by
  induction t with
  | nil => simp at h
  | cons p rest ih =>
    cases p with
    | mk pk pv =>
      by_cases hp : pk = k
      · simp [tcontains, tget, hp]
      · rcases List.mem_cons.mp h with h1 | h2
        · exact absurd (congrArg Prod.fst h1.symm) hp
        · simp only [tcontains, tget, hp, if_false]
          simpa [tcontains] using ih h2

theorem mem_of_tcontains {K V : Type} [DecidableEq K] {t : Tree K V} {k : K}
    (h : tcontains t k = true) : ∃ v, (k, v) ∈ t := by
  induction t with
  | nil => simp [tcontains] at h
  | cons p rest ih =>
    cases p with
    | mk pk pv =>
      by_cases hp : pk = k
      · exact ⟨pv, by simp [hp]⟩
      · simp only [tcontains, tget, hp, if_false] at h
        obtain ⟨v, hv⟩ := ih h
        exact ⟨v, List.mem_cons_of_mem _ hv⟩

/-! Generic lemmas about left folds, used to push state invariants through
the cascading loops. -/

theorem foldl_pres {α β : Type _} (P : α → Prop) (f : α → β → α) :
    ∀ (L : List β) (a : α), (∀ x b, b ∈ L → P x → P (f x b)) → P a → P (L.foldl f a)
  | [], _, _, ha => ha
  | b :: rest, a, h, ha =>
      foldl_pres P f rest (f a b)
        (fun x c hc => h x c (List.mem_cons_of_mem _ hc))
        (h a b (List.mem_cons_self _ _) ha)

theorem foldl_kills {α β : Type _} (P : α → Prop) (f : α → β → α) (b0 : β) :
    ∀ (L : List β) (a : α), b0 ∈ L → (∀ x b, b ∈ L → P x → P (f x b)) →
      (∀ x, P (f x b0)) → P (L.foldl f a)
  | [], _, hmem, _, _ => absurd hmem (List.not_mem_nil _)
  | b :: rest, a, hmem, hpres, hkill => by
      rcases List.mem_cons.mp hmem with h1 | h2
      · subst h1
        exact foldl_pres P f rest (f a b0)
          (fun x c hc => hpres x c (List.mem_cons_of_mem _ hc)) (hkill a)
      · exact foldl_kills P f b0 rest (f a b) h2
          (fun x c hc => hpres x c (List.mem_cons_of_mem _ hc)) hkill

/-! Projection lemmas: which trees each manager operation touches, and how. -/

namespace VertexPropertyManager

theorem vpm_delete_vertex_properties (s : SledHolder) (i : Uuid) (n : Identifier) :
    (delete s i n).vertex_properties = tremove s.vertex_properties (i, n) := by
  unfold delete
  cases tget s.vertex_properties (i, n) <;> rfl

theorem vpm_delete_db (s : SledHolder) (i : Uuid) (n : Identifier) :
    (delete s i n).db = s.db := by
  unfold delete; cases tget s.vertex_properties (i, n) <;> rfl

theorem vpm_delete_edges_tree (s : SledHolder) (i : Uuid) (n : Identifier) :
    (delete s i n).edges = s.edges := by
  unfold delete; cases tget s.vertex_properties (i, n) <;> rfl

theorem vpm_delete_edge_ranges (s : SledHolder) (i : Uuid) (n : Identifier) :
    (delete s i n).edge_ranges = s.edge_ranges := by
  unfold delete; cases tget s.vertex_properties (i, n) <;> rfl

theorem vpm_delete_reversed_edge_ranges (s : SledHolder) (i : Uuid) (n : Identifier) :
    (delete s i n).reversed_edge_ranges = s.reversed_edge_ranges := by
  unfold delete; cases tget s.vertex_properties (i, n) <;> rfl

theorem vpm_delete_edge_properties (s : SledHolder) (i : Uuid) (n : Identifier) :
    (delete s i n).edge_properties = s.edge_properties := by
  unfold delete; cases tget s.vertex_properties (i, n) <;> rfl

theorem vpm_delete_edge_property_values (s : SledHolder) (i : Uuid) (n : Identifier) :
    (delete s i n).edge_property_values = s.edge_property_values := by
  unfold delete; cases tget s.vertex_properties (i, n) <;> rfl

theorem vpm_set_db (s : SledHolder) (i : Uuid) (n : Identifier) (v : JsonValue) :
    (set s i n v).db = s.db := by
  unfold set; cases tget s.vertex_properties (i, n) <;> rfl

theorem vpm_set_edges_tree (s : SledHolder) (i : Uuid) (n : Identifier) (v : JsonValue) :
    (set s i n v).edges = s.edges := by
  unfold set; cases tget s.vertex_properties (i, n) <;> rfl

theorem vpm_set_edge_ranges (s : SledHolder) (i : Uuid) (n : Identifier) (v : JsonValue) :
    (set s i n v).edge_ranges = s.edge_ranges := by
  unfold set; cases tget s.vertex_properties (i, n) <;> rfl

theorem vpm_set_reversed_edge_ranges (s : SledHolder) (i : Uuid) (n : Identifier)
    (v : JsonValue) :
    (set s i n v).reversed_edge_ranges = s.reversed_edge_ranges := by
  unfold set; cases tget s.vertex_properties (i, n) <;> rfl

theorem vpm_set_edge_properties (s : SledHolder) (i : Uuid) (n : Identifier) (v : JsonValue) :
    (set s i n v).edge_properties = s.edge_properties := by
  unfold set; cases tget s.vertex_properties (i, n) <;> rfl

theorem vpm_set_edge_property_values (s : SledHolder) (i : Uuid) (n : Identifier)
    (v : JsonValue) :
    (set s i n v).edge_property_values = s.edge_property_values := by
  unfold set; cases tget s.vertex_properties (i, n) <;> rfl

theorem vpm_set_vertex_properties_tree (s : SledHolder) (i : Uuid) (n : Identifier)
    (v : JsonValue) :
    (set s i n v).vertex_properties = tinsert s.vertex_properties (i, n) v := by
  unfold set; cases tget s.vertex_properties (i, n) <;> rfl

theorem vpm_set_indexed (s : SledHolder) (i : Uuid) (n : Identifier) (v : JsonValue) :
    (set s i n v).indexed_properties = s.indexed_properties := by
  unfold set; cases tget s.vertex_properties (i, n) <;> rfl

theorem vpm_tget_set_self (s : SledHolder) (i : Uuid) (n : Identifier) (v : JsonValue) :
    tget (set s i n v).vertex_properties (i, n) = some v := by
  rw [vpm_set_vertex_properties_tree]; simp

theorem vpm_tcontains_set_value_self (s : SledHolder) (i : Uuid) (n : Identifier)
    (v : JsonValue) :
    tcontains (set s i n v).vertex_property_values (n, v, i) = true := by
  unfold set
  cases tget s.vertex_properties (i, n) <;>
    simp [tcontains_tinsert]

end VertexPropertyManager

namespace EdgePropertyManager

theorem epm_delete_edge_properties (s : SledHolder) (e : Edge) (n : Identifier) :
    (delete s e n).edge_properties = tremove s.edge_properties (e, n) := by
  unfold delete; cases tget s.edge_properties (e, n) <;> rfl

theorem epm_delete_db (s : SledHolder) (e : Edge) (n : Identifier) :
    (delete s e n).db = s.db := by
  unfold delete; cases tget s.edge_properties (e, n) <;> rfl

theorem epm_delete_edges_tree (s : SledHolder) (e : Edge) (n : Identifier) :
    (delete s e n).edges = s.edges := by
  unfold delete; cases tget s.edge_properties (e, n) <;> rfl

theorem epm_delete_edge_ranges (s : SledHolder) (e : Edge) (n : Identifier) :
    (delete s e n).edge_ranges = s.edge_ranges := by
  unfold delete; cases tget s.edge_properties (e, n) <;> rfl

theorem epm_delete_reversed_edge_ranges (s : SledHolder) (e : Edge) (n : Identifier) :
    (delete s e n).reversed_edge_ranges = s.reversed_edge_ranges := by
  unfold delete; cases tget s.edge_properties (e, n) <;> rfl

theorem epm_delete_vertex_properties (s : SledHolder) (e : Edge) (n : Identifier) :
    (delete s e n).vertex_properties = s.vertex_properties := by
  unfold delete; cases tget s.edge_properties (e, n) <;> rfl

theorem epm_delete_vertex_property_values (s : SledHolder) (e : Edge) (n : Identifier) :
    (delete s e n).vertex_property_values = s.vertex_property_values := by
  unfold delete; cases tget s.edge_properties (e, n) <;> rfl

theorem epm_set_db (s : SledHolder) (e : Edge) (n : Identifier) (v : JsonValue) :
    (set s e n v).db = s.db := by
  unfold set; cases tget s.edge_properties (e, n) <;> rfl

theorem epm_set_edges_tree (s : SledHolder) (e : Edge) (n : Identifier) (v : JsonValue) :
    (set s e n v).edges = s.edges := by
  unfold set; cases tget s.edge_properties (e, n) <;> rfl

theorem epm_set_edge_ranges (s : SledHolder) (e : Edge) (n : Identifier) (v : JsonValue) :
    (set s e n v).edge_ranges = s.edge_ranges := by
  unfold set; cases tget s.edge_properties (e, n) <;> rfl

theorem epm_set_reversed_edge_ranges (s : SledHolder) (e : Edge) (n : Identifier)
    (v : JsonValue) :
    (set s e n v).reversed_edge_ranges = s.reversed_edge_ranges := by
  unfold set; cases tget s.edge_properties (e, n) <;> rfl

theorem epm_set_vertex_properties (s : SledHolder) (e : Edge) (n : Identifier)
    (v : JsonValue) :
    (set s e n v).vertex_properties = s.vertex_properties := by
  unfold set; cases tget s.edge_properties (e, n) <;> rfl

theorem epm_set_vertex_property_values (s : SledHolder) (e : Edge) (n : Identifier)
    (v : JsonValue) :
    (set s e n v).vertex_property_values = s.vertex_property_values := by
  unfold set; cases tget s.edge_properties (e, n) <;> rfl

theorem epm_set_edge_properties_tree (s : SledHolder) (e : Edge) (n : Identifier)
    (v : JsonValue) :
    (set s e n v).edge_properties = tinsert s.edge_properties (e, n) v := by
  unfold set; cases tget s.edge_properties (e, n) <;> rfl

theorem epm_set_indexed (s : SledHolder) (e : Edge) (n : Identifier) (v : JsonValue) :
    (set s e n v).indexed_properties = s.indexed_properties := by
  unfold set; cases tget s.edge_properties (e, n) <;> rfl

theorem epm_tget_set_self (s : SledHolder) (e : Edge) (n : Identifier) (v : JsonValue) :
    tget (set s e n v).edge_properties (e, n) = some v := by
  rw [epm_set_edge_properties_tree]; simp

theorem epm_tcontains_set_value_self (s : SledHolder) (e : Edge) (n : Identifier)
    (v : JsonValue) :
    tcontains (set s e n v).edge_property_values (n, v, e) = true := by
  unfold set
  cases tget s.edge_properties (e, n) <;>
    simp [tcontains_tinsert]

end EdgePropertyManager

namespace EdgeManager

theorem em_set_edges_tree (s : SledHolder) (e : Edge) :
    (set s e).edges = tinsert s.edges e () := rfl

theorem em_set_edge_ranges (s : SledHolder) (e : Edge) :
    (set s e).edge_ranges = tinsert s.edge_ranges e () := rfl

theorem em_set_reversed_edge_ranges (s : SledHolder) (e : Edge) :
    (set s e).reversed_edge_ranges = tinsert s.reversed_edge_ranges (reverse_edge e) () := rfl

theorem em_set_db (s : SledHolder) (e : Edge) : (set s e).db = s.db := rfl

theorem em_set_vertex_properties (s : SledHolder) (e : Edge) :
    (set s e).vertex_properties = s.vertex_properties := rfl

theorem em_set_edge_properties (s : SledHolder) (e : Edge) :
    (set s e).edge_properties = s.edge_properties := rfl

theorem em_delete_db (s : SledHolder) (e : Edge) : (delete s e).db = s.db := by
  unfold delete
  apply foldl_pres (fun (st : SledHolder) => st.db = s.db)
  · intro x b _ hx
    rw [EdgePropertyManager.epm_delete_db]; exact hx
  · rfl

theorem em_delete_edges_tree (s : SledHolder) (e : Edge) :
    (delete s e).edges = tremove s.edges e := by
  unfold delete
  apply foldl_pres (fun (st : SledHolder) => st.edges = tremove s.edges e)
  · intro x b _ hx
    rw [EdgePropertyManager.epm_delete_edges_tree]; exact hx
  · rfl

theorem em_delete_edge_ranges (s : SledHolder) (e : Edge) :
    (delete s e).edge_ranges = tremove s.edge_ranges e := by
  unfold delete
  apply foldl_pres (fun (st : SledHolder) => st.edge_ranges = tremove s.edge_ranges e)
  · intro x b _ hx
    rw [EdgePropertyManager.epm_delete_edge_ranges]; exact hx
  · rfl

theorem em_delete_reversed_edge_ranges (s : SledHolder) (e : Edge) :
    (delete s e).reversed_edge_ranges = tremove s.reversed_edge_ranges (reverse_edge e) := by
  unfold delete
  apply foldl_pres
    (fun (st : SledHolder) =>
      st.reversed_edge_ranges = tremove s.reversed_edge_ranges (reverse_edge e))
  · intro x b _ hx
    rw [EdgePropertyManager.epm_delete_reversed_edge_ranges]; exact hx
  · rfl

theorem em_delete_vertex_properties (s : SledHolder) (e : Edge) :
    (delete s e).vertex_properties = s.vertex_properties := by
  unfold delete
  apply foldl_pres (fun (st : SledHolder) => st.vertex_properties = s.vertex_properties)
  · intro x b _ hx
    rw [EdgePropertyManager.epm_delete_vertex_properties]; exact hx
  · rfl

theorem em_delete_vertex_property_values (s : SledHolder) (e : Edge) :
    (delete s e).vertex_property_values = s.vertex_property_values := by
  unfold delete
  apply foldl_pres
    (fun (st : SledHolder) => st.vertex_property_values = s.vertex_property_values)
  · intro x b _ hx
    rw [EdgePropertyManager.epm_delete_vertex_property_values]; exact hx
  · rfl

theorem em_tget_delete_edge_properties (s : SledHolder) (e q : Edge) (n : Identifier) :
    tget (delete s e).edge_properties (q, n) =
      if q = e then none else tget s.edge_properties (q, n) := by
  by_cases hqe : q = e
  · subst hqe
    rw [if_pos rfl]
    unfold delete EdgePropertyManager.iterate_for_owner
    cases hg : tget s.edge_properties (q, n) with
    | none =>
        apply foldl_pres (fun (st : SledHolder) => tget st.edge_properties (q, n) = none)
        · intro x b _ hx
          rw [EdgePropertyManager.epm_delete_edge_properties, tget_tremove]
          split
          · rfl
          · exact hx
        · exact hg
    | some val =>
        have hc : tcontains s.edge_properties (q, n) = true := by
          simp [tcontains, hg]
        obtain ⟨v0, hmem⟩ := mem_of_tcontains hc
        have hmemf : ((q, n), v0) ∈
            s.edge_properties.filter (fun p => decide (p.1.1 = q)) :=
          List.mem_filter.mpr ⟨hmem, by simp⟩
        apply foldl_kills (fun (st : SledHolder) => tget st.edge_properties (q, n) = none)
          _ ((q, n), v0)
        · exact hmemf
        · intro x b _ hx
          rw [EdgePropertyManager.epm_delete_edge_properties, tget_tremove]
          split
          · rfl
          · exact hx
        · intro x
          rw [EdgePropertyManager.epm_delete_edge_properties, tget_tremove]
          simp
  · rw [if_neg hqe]
    unfold delete EdgePropertyManager.iterate_for_owner
    apply foldl_pres
      (fun (st : SledHolder) =>
        tget st.edge_properties (q, n) = tget s.edge_properties (q, n))
    · intro x b hb hx
      have hbe : b.1.1 = e := by
        have := (List.mem_filter.mp hb).2
        simpa using this
      rw [EdgePropertyManager.epm_delete_edge_properties, tget_tremove]
      have hne : ¬ ((q, n) = (b.1.1, b.1.2)) := by
        intro hcontra
        have hq1 : q = b.1.1 := congrArg Prod.fst hcontra
        exact hqe (hq1.trans hbe)
      rw [if_neg hne]
      exact hx
    · rfl

end EdgeManager

namespace MetaDataManager

theorem add_index_db (s : SledHolder) (n : Identifier) : (add_index s n).db = s.db := by
  unfold add_index sync; split <;> rfl

theorem add_index_edges_tree (s : SledHolder) (n : Identifier) :
    (add_index s n).edges = s.edges := by
  unfold add_index sync; split <;> rfl

theorem add_index_edge_ranges (s : SledHolder) (n : Identifier) :
    (add_index s n).edge_ranges = s.edge_ranges := by
  unfold add_index sync; split <;> rfl

theorem add_index_reversed_edge_ranges (s : SledHolder) (n : Identifier) :
    (add_index s n).reversed_edge_ranges = s.reversed_edge_ranges := by
  unfold add_index sync; split <;> rfl

theorem add_index_vertex_properties (s : SledHolder) (n : Identifier) :
    (add_index s n).vertex_properties = s.vertex_properties := by
  unfold add_index sync; split <;> rfl

theorem add_index_vertex_property_values (s : SledHolder) (n : Identifier) :
    (add_index s n).vertex_property_values = s.vertex_property_values := by
  unfold add_index sync; split <;> rfl

theorem add_index_edge_properties (s : SledHolder) (n : Identifier) :
    (add_index s n).edge_properties = s.edge_properties := by
  unfold add_index sync; split <;> rfl

theorem add_index_edge_property_values (s : SledHolder) (n : Identifier) :
    (add_index s n).edge_property_values = s.edge_property_values := by
  unfold add_index sync; split <;> rfl

theorem is_indexed_add_index_self (s : SledHolder) (n : Identifier) :
    is_indexed (add_index s n) n = true := by
  unfold add_index is_indexed sync
  split
  · simpa [is_indexed] using (by assumption : s.indexed_properties.contains n = true)
  · simp

end MetaDataManager

theorem VertexPropertyManager.vpm_value_tree_after_set_of_old (s : SledHolder) (i : Uuid)
    (n : Identifier) (x y : JsonValue)
    (hold : tget s.vertex_properties (i, n) = some x) :
    (VertexPropertyManager.set s i n y).vertex_property_values =
      tinsert (tremove s.vertex_property_values (n, x, i)) (n, y, i) y := by
  unfold VertexPropertyManager.set
  rw [hold]

theorem EdgePropertyManager.epm_value_tree_after_set_of_old (s : SledHolder) (e : Edge)
    (n : Identifier) (x y : JsonValue)
    (hold : tget s.edge_properties (e, n) = some x) :
    (EdgePropertyManager.set s e n y).edge_property_values =
      tinsert (tremove s.edge_property_values (n, x, e)) (n, y, e) y := by
  unfold EdgePropertyManager.set
  rw [hold]

/-! Claim theorems. -/

/-- C7: for every vertex v, calling create_vertex twice on a store not
containing v.id returns true the first time and false the second time, and
the second call leaves the entire store state unchanged. -/
theorem claim_C7 (s : SledHolder) (v : Vertex) (h : tcontains s.db v.id = false) :
    (SledTransaction.create_vertex s v).1 = true ∧
    (SledTransaction.create_vertex (SledTransaction.create_vertex s v).2 v).1 = false ∧
    (SledTransaction.create_vertex (SledTransaction.create_vertex s v).2 v).2 =
      (SledTransaction.create_vertex s v).2 := by
  have h1 : SledTransaction.create_vertex s v =
      (true, { s with db := tinsert s.db v.id v.t }) := by
    unfold SledTransaction.create_vertex VertexManager.create
    simp [h]
  have h2 : SledTransaction.create_vertex { s with db := tinsert s.db v.id v.t } v =
      (false, { s with db := tinsert s.db v.id v.t }) := by
    unfold SledTransaction.create_vertex VertexManager.create
    simp [tcontains_tinsert]
  simp only [h1]
  simp [h2]

/-- Witness for C7 at the empty store and the vertex (1, 10). -/
theorem claim_C7_witness :
    tcontains emptyHolder.db (1 : Uuid) = false ∧
    ((SledTransaction.create_vertex emptyHolder ⟨1, 10⟩).1 = true ∧
      (SledTransaction.create_vertex
        (SledTransaction.create_vertex emptyHolder ⟨1, 10⟩).2 ⟨1, 10⟩).1 = false ∧
      (SledTransaction.create_vertex
        (SledTransaction.create_vertex emptyHolder ⟨1, 10⟩).2 ⟨1, 10⟩).2 =
        (SledTransaction.create_vertex emptyHolder ⟨1, 10⟩).2) :=
  ⟨by decide, claim_C7 emptyHolder ⟨1, 10⟩ (by decide)⟩

/-- C3: create_edge returns false and changes nothing when either endpoint
vertex is missing (so edge_count is unchanged); when both endpoints exist
it performs the EdgeManager insertion and returns true, after which the
edges tree, the forward range tree and the reversed range tree all hold the
edge. -/
theorem claim_C3 (s : SledHolder) (e : Edge) :
    ((VertexManager.existsId s e.outbound_id = false ∨
        VertexManager.existsId s e.inbound_id = false) →
      SledTransaction.create_edge s e = (false, s) ∧
      SledTransaction.edge_count (SledTransaction.create_edge s e).2 =
        SledTransaction.edge_count s) ∧
    (VertexManager.existsId s e.outbound_id = true →
      VertexManager.existsId s e.inbound_id = true →
      SledTransaction.create_edge s e = (true, EdgeManager.set s e) ∧
      tcontains (EdgeManager.set s e).edges e = true ∧
      tcontains (EdgeManager.set s e).edge_ranges e = true ∧
      tcontains (EdgeManager.set s e).reversed_edge_ranges (reverse_edge e) = true) := by
  constructor
  · intro h
    have hfalse : SledTransaction.create_edge s e = (false, s) := by
      unfold SledTransaction.create_edge
      rcases h with h | h <;> simp [h]
    exact ⟨hfalse, by rw [hfalse]⟩
  · intro h1 h2
    refine ⟨?_, ?_, ?_, ?_⟩
    · unfold SledTransaction.create_edge
      simp [h1, h2]
    · rw [EdgeManager.em_set_edges_tree, tcontains_tinsert]; simp
    · rw [EdgeManager.em_set_edge_ranges, tcontains_tinsert]; simp
    · rw [EdgeManager.em_set_reversed_edge_ranges, tcontains_tinsert]; simp

/-- Witness for C3: at the two-vertex store, the edge (1, 7, 99) has a
missing inbound endpoint and the edge (1, 7, 2) has both endpoints. -/
theorem claim_C3_witness :
    (SledTransaction.create_edge twoVertexState ⟨1, 7, 99⟩ = (false, twoVertexState) ∧
      SledTransaction.edge_count
          (SledTransaction.create_edge twoVertexState ⟨1, 7, 99⟩).2 =
        SledTransaction.edge_count twoVertexState) ∧
    (SledTransaction.create_edge twoVertexState ⟨1, 7, 2⟩ =
        (true, EdgeManager.set twoVertexState ⟨1, 7, 2⟩) ∧
      tcontains (EdgeManager.set twoVertexState ⟨1, 7, 2⟩).edges ⟨1, 7, 2⟩ = true ∧
      tcontains (EdgeManager.set twoVertexState ⟨1, 7, 2⟩).edge_ranges ⟨1, 7, 2⟩ = true ∧
      tcontains (EdgeManager.set twoVertexState ⟨1, 7, 2⟩).reversed_edge_ranges
          (reverse_edge ⟨1, 7, 2⟩) = true) :=
  ⟨(claim_C3 twoVertexState ⟨1, 7, 99⟩).1 (Or.inr (by decide)),
    (claim_C3 twoVertexState ⟨1, 7, 2⟩).2 (by decide) (by decide)⟩

/-- C5: each of the four indexed-query entry points returns None exactly
when the property name is not in the indexed registry, and returns Some of
a (possibly empty) sequence when it is, so a missing index is distinguished
from an empty result. -/
theorem claim_C5 (s : SledHolder) (name : Identifier) (value : JsonValue) :
    (SledTransaction.vertex_ids_with_property s name = none ↔
      MetaDataManager.is_indexed s name = false) ∧
    (SledTransaction.vertex_ids_with_property_value s name value = none ↔
      MetaDataManager.is_indexed s name = false) ∧
    (SledTransaction.edges_with_property s name = none ↔
      MetaDataManager.is_indexed s name = false) ∧
    (SledTransaction.edges_with_property_value s name value = none ↔
      MetaDataManager.is_indexed s name = false) := by
  unfold SledTransaction.vertex_ids_with_property
    SledTransaction.vertex_ids_with_property_value
    SledTransaction.edges_with_property SledTransaction.edges_with_property_value
  by_cases hi : MetaDataManager.is_indexed s name = true
  · simp [hi]
  · simp only [Bool.not_eq_true] at hi
    simp [hi]

/-- C10: specific_edges equals the input list filtered by the forward
edge-range membership check (with a failing check treated as absent) with
every survivor wrapped in Ok, so it preserves input order, never yields an
error item, and decides existence by the edge_ranges tree. -/
theorem claim_C10 (s : SledHolder) (err : Edge → Bool) (es : List Edge) :
    SledTransaction.specific_edges s err es =
      (es.filter (fun e => !(err e) && tcontains s.edge_ranges e)).map Except.ok ∧
    ∀ x ∈ SledTransaction.specific_edges s err es,
      ∃ e, x = Except.ok e ∧ tcontains s.edge_ranges e = true ∧ err e = false ∧
        e ∈ es := by
  have hp : ∀ e : Edge,
      (match SledTransaction.containsFallible s err e with
        | Except.ok r => r
        | Except.error _ => false) = (!(err e) && tcontains s.edge_ranges e) := by
    intro e
    unfold SledTransaction.containsFallible EdgeRangeManager.contains
    by_cases he : err e = true <;> simp [he]
  have hchar : SledTransaction.specific_edges s err es =
      (es.filter (fun e => !(err e) && tcontains s.edge_ranges e)).map Except.ok := by
    unfold SledTransaction.specific_edges
    rw [List.filter_congr (fun a _ => hp a)]
  refine ⟨hchar, ?_⟩
  intro x hx
  rw [hchar] at hx
  obtain ⟨e, he, hxe⟩ := List.mem_map.mp hx
  obtain ⟨hmem, hpred⟩ := List.mem_filter.mp he
  refine ⟨e, hxe.symm, ?_, ?_, hmem⟩
  · exact (Bool.and_eq_true_iff.mp hpred).2
  · have := (Bool.and_eq_true_iff.mp hpred).1
    simpa using this

/-- Witness for C10 at the two-vertex store with the edge (1, 7, 2)
present, applied to the first yielded item. -/
theorem claim_C10_witness :
    ∃ e, (Except.ok (⟨1, 7, 2⟩ : Edge) : Except Unit Edge) = Except.ok e ∧
      tcontains (EdgeManager.set twoVertexState ⟨1, 7, 2⟩).edge_ranges e = true ∧
      (fun (_ : Edge) => false) e = false ∧
      e ∈ ([⟨1, 7, 2⟩, ⟨9, 9, 9⟩] : List Edge) :=
  (claim_C10 (EdgeManager.set twoVertexState ⟨1, 7, 2⟩) (fun _ => false)
    [⟨1, 7, 2⟩, ⟨9, 9, 9⟩]).2 (Except.ok ⟨1, 7, 2⟩) (List.Mem.head _)

/-- C4: overwriting a property from x to y on a vertex owner o (and on an
edge owner oe) removes the old value-index key (n, x, owner), installs the
new value-index key (n, y, owner), and makes get return Some y. -/
theorem claim_C4 (s : SledHolder) (o : Uuid) (oe : Edge) (n : Identifier)
    (x y : JsonValue) (hxy : x ≠ y) :
    VertexPropertyManager.get
        (VertexPropertyManager.set (VertexPropertyManager.set s o n x) o n y) o n =
      some y ∧
    tcontains (VertexPropertyManager.set (VertexPropertyManager.set s o n x) o n
        y).vertex_property_values (n, y, o) = true ∧
    tcontains (VertexPropertyManager.set (VertexPropertyManager.set s o n x) o n
        y).vertex_property_values (n, x, o) = false ∧
    EdgePropertyManager.get
        (EdgePropertyManager.set (EdgePropertyManager.set s oe n x) oe n y) oe n =
      some y ∧
    tcontains (EdgePropertyManager.set (EdgePropertyManager.set s oe n x) oe n
        y).edge_property_values (n, y, oe) = true ∧
    tcontains (EdgePropertyManager.set (EdgePropertyManager.set s oe n x) oe n
        y).edge_property_values (n, x, oe) = false := by
  have hvold := VertexPropertyManager.vpm_tget_set_self s o n x
  have hv := VertexPropertyManager.vpm_value_tree_after_set_of_old
    (VertexPropertyManager.set s o n x) o n x y hvold
  have heold := EdgePropertyManager.epm_tget_set_self s oe n x
  have he := EdgePropertyManager.epm_value_tree_after_set_of_old
    (EdgePropertyManager.set s oe n x) oe n x y heold
  refine ⟨?_, ?_, ?_, ?_, ?_, ?_⟩
  · exact VertexPropertyManager.vpm_tget_set_self _ o n y
  · exact VertexPropertyManager.vpm_tcontains_set_value_self _ o n y
  · rw [hv, tcontains_tinsert, tcontains_tremove]
    simp [Ne.symm hxy]
  · exact EdgePropertyManager.epm_tget_set_self _ oe n y
  · exact EdgePropertyManager.epm_tcontains_set_value_self _ oe n y
  · rw [he, tcontains_tinsert, tcontains_tremove]
    simp [Ne.symm hxy]

/-- Witness for C4: overwrite the property 5 from 30 to 31 on vertex 1 and
on edge (1, 7, 2) of the empty store. -/
theorem claim_C4_witness :
    (30 : JsonValue) ≠ 31 ∧
    (VertexPropertyManager.get
        (VertexPropertyManager.set
          (VertexPropertyManager.set emptyHolder 1 5 30) 1 5 31) 1 5 = some 31 ∧
      tcontains (VertexPropertyManager.set
          (VertexPropertyManager.set emptyHolder 1 5 30) 1 5
          31).vertex_property_values (5, 31, 1) = true ∧
      tcontains (VertexPropertyManager.set
          (VertexPropertyManager.set emptyHolder 1 5 30) 1 5
          31).vertex_property_values (5, 30, 1) = false ∧
      EdgePropertyManager.get
        (EdgePropertyManager.set
          (EdgePropertyManager.set emptyHolder ⟨1, 7, 2⟩ 5 30) ⟨1, 7, 2⟩ 5 31)
        ⟨1, 7, 2⟩ 5 = some 31 ∧
      tcontains (EdgePropertyManager.set
          (EdgePropertyManager.set emptyHolder ⟨1, 7, 2⟩ 5 30) ⟨1, 7, 2⟩ 5
          31).edge_property_values (5, 31, ⟨1, 7, 2⟩) = true ∧
      tcontains (EdgePropertyManager.set
          (EdgePropertyManager.set emptyHolder ⟨1, 7, 2⟩ 5 30) ⟨1, 7, 2⟩ 5
          31).edge_property_values (5, 30, ⟨1, 7, 2⟩) = false) := by
  refine ⟨by decide, ?_⟩
  have h := claim_C4 emptyHolder 1 ⟨1, 7, 2⟩ 5 30 31 (by decide)
  exact h

/-- C9: a property set writes the value-index entry whether or not the name
is indexed; index_property only updates the registry (every property tree
and graph tree is untouched, and the name becomes indexed); consequently a
property written before indexing is visible to the indexed query right
after index_property, with no backfill. -/
theorem claim_C9 (s : SledHolder) (id : Uuid) (e : Edge) (name : Identifier)
    (value : JsonValue) :
    tcontains (VertexPropertyManager.set s id name
        value).vertex_property_values (name, value, id) = true ∧
    tcontains (EdgePropertyManager.set s e name
        value).edge_property_values (name, value, e) = true ∧
    ((SledTransaction.index_property s name).vertex_properties = s.vertex_properties ∧
      (SledTransaction.index_property s name).vertex_property_values =
        s.vertex_property_values ∧
      (SledTransaction.index_property s name).edge_properties = s.edge_properties ∧
      (SledTransaction.index_property s name).edge_property_values =
        s.edge_property_values ∧
      (SledTransaction.index_property s name).db = s.db ∧
      (SledTransaction.index_property s name).edges = s.edges ∧
      (SledTransaction.index_property s name).edge_ranges = s.edge_ranges ∧
      (SledTransaction.index_property s name).reversed_edge_ranges =
        s.reversed_edge_ranges ∧
      MetaDataManager.is_indexed (SledTransaction.index_property s name) name = true) ∧
    id ∈ (SledTransaction.vertex_ids_with_property
        (SledTransaction.index_property (VertexPropertyManager.set s id name value)
          name) name).getD [] := by
  refine ⟨VertexPropertyManager.vpm_tcontains_set_value_self s id name value,
    EdgePropertyManager.epm_tcontains_set_value_self s e name value,
    ⟨MetaDataManager.add_index_vertex_properties s name,
      MetaDataManager.add_index_vertex_property_values s name,
      MetaDataManager.add_index_edge_properties s name,
      MetaDataManager.add_index_edge_property_values s name,
      MetaDataManager.add_index_db s name,
      MetaDataManager.add_index_edges_tree s name,
      MetaDataManager.add_index_edge_ranges s name,
      MetaDataManager.add_index_reversed_edge_ranges s name,
      MetaDataManager.is_indexed_add_index_self s name⟩, ?_⟩
  have h1 : MetaDataManager.is_indexed
      (SledTransaction.index_property (VertexPropertyManager.set s id name value) name)
      name = true :=
    MetaDataManager.is_indexed_add_index_self _ name
  have h2 : (SledTransaction.index_property (VertexPropertyManager.set s id name value)
      name).vertex_property_values =
      (VertexPropertyManager.set s id name value).vertex_property_values :=
    MetaDataManager.add_index_vertex_property_values _ name
  have h3 : tcontains (SledTransaction.index_property
      (VertexPropertyManager.set s id name value) name).vertex_property_values
      (name, value, id) = true := by
    rw [h2]
    exact VertexPropertyManager.vpm_tcontains_set_value_self s id name value
  obtain ⟨v0, hmem⟩ := mem_of_tcontains h3
  unfold SledTransaction.vertex_ids_with_property
  rw [h1]
  simp only [Bool.not_true, Bool.false_eq_true, if_false, Option.getD_some]
  unfold VertexPropertyManager.iterate_for_property_name
  exact List.mem_map.mpr ⟨((name, value, id), v0),
    List.mem_filter.mpr ⟨hmem, by simp⟩, rfl⟩

/-- C2: EdgeManager set inserts the edge key, the forward range entry and
the reversed range entry (built by swapping outbound and inbound); delete
removes all three; and any sequence of set/delete operations preserves, for
each edge, the agreement between the forward entry and the reversed entry
of its reversal — both exist or neither does. -/
theorem claim_C2 (s : SledHolder) (ops : List EdgeOp) (e : Edge)
    (h : tcontains s.edge_ranges e =
      tcontains s.reversed_edge_ranges (reverse_edge e)) :
    (tcontains (EdgeManager.set s e).edges e = true ∧
      tcontains (EdgeManager.set s e).edge_ranges e = true ∧
      tcontains (EdgeManager.set s e).reversed_edge_ranges (reverse_edge e) = true) ∧
    (tcontains (EdgeManager.delete s e).edges e = false ∧
      tcontains (EdgeManager.delete s e).edge_ranges e = false ∧
      tcontains (EdgeManager.delete s e).reversed_edge_ranges (reverse_edge e) =
        false) ∧
    tcontains (applyEdgeOps s ops).edge_ranges e =
      tcontains (applyEdgeOps s ops).reversed_edge_ranges (reverse_edge e) := by
  refine ⟨⟨?_, ?_, ?_⟩, ⟨?_, ?_, ?_⟩, ?_⟩
  · rw [EdgeManager.em_set_edges_tree, tcontains_tinsert]; simp
  · rw [EdgeManager.em_set_edge_ranges, tcontains_tinsert]; simp
  · rw [EdgeManager.em_set_reversed_edge_ranges, tcontains_tinsert]; simp
  · rw [EdgeManager.em_delete_edges_tree, tcontains_tremove]; simp
  · rw [EdgeManager.em_delete_edge_ranges, tcontains_tremove]; simp
  · rw [EdgeManager.em_delete_reversed_edge_ranges, tcontains_tremove]; simp
  · unfold applyEdgeOps
    apply foldl_pres
      (fun (st : SledHolder) => tcontains st.edge_ranges e =
        tcontains st.reversed_edge_ranges (reverse_edge e))
    · intro x b _ hx
      cases b with
      | set q =>
          show tcontains (EdgeManager.set x q).edge_ranges e =
            tcontains (EdgeManager.set x q).reversed_edge_ranges (reverse_edge e)
          rw [EdgeManager.em_set_edge_ranges, EdgeManager.em_set_reversed_edge_ranges,
            tcontains_tinsert, tcontains_tinsert, hx]
          simp
      | del q =>
          show tcontains (EdgeManager.delete x q).edge_ranges e =
            tcontains (EdgeManager.delete x q).reversed_edge_ranges (reverse_edge e)
          rw [EdgeManager.em_delete_edge_ranges, EdgeManager.em_delete_reversed_edge_ranges,
            tcontains_tremove, tcontains_tremove, hx]
          simp
    · exact h

/-- Witness for C2 at the empty store with a set-then-delete workload on
the edge (1, 7, 2). -/
theorem claim_C2_witness :
    tcontains emptyHolder.edge_ranges ⟨1, 7, 2⟩ =
      tcontains emptyHolder.reversed_edge_ranges (reverse_edge ⟨1, 7, 2⟩) ∧
    ((tcontains (EdgeManager.set emptyHolder ⟨1, 7, 2⟩).edges ⟨1, 7, 2⟩ = true ∧
      tcontains (EdgeManager.set emptyHolder ⟨1, 7, 2⟩).edge_ranges ⟨1, 7, 2⟩ = true ∧
      tcontains (EdgeManager.set emptyHolder ⟨1, 7, 2⟩).reversed_edge_ranges
          (reverse_edge ⟨1, 7, 2⟩) = true) ∧
    (tcontains (EdgeManager.delete emptyHolder ⟨1, 7, 2⟩).edges ⟨1, 7, 2⟩ = false ∧
      tcontains (EdgeManager.delete emptyHolder ⟨1, 7, 2⟩).edge_ranges ⟨1, 7, 2⟩ =
        false ∧
      tcontains (EdgeManager.delete emptyHolder ⟨1, 7, 2⟩).reversed_edge_ranges
          (reverse_edge ⟨1, 7, 2⟩) = false) ∧
    tcontains (applyEdgeOps emptyHolder
        [EdgeOp.set ⟨1, 7, 2⟩, EdgeOp.del ⟨1, 7, 2⟩]).edge_ranges ⟨1, 7, 2⟩ =
      tcontains (applyEdgeOps emptyHolder
          [EdgeOp.set ⟨1, 7, 2⟩, EdgeOp.del ⟨1, 7, 2⟩]).reversed_edge_ranges
        (reverse_edge ⟨1, 7, 2⟩)) :=
  ⟨by decide,
    claim_C2 emptyHolder [EdgeOp.set ⟨1, 7, 2⟩, EdgeOp.del ⟨1, 7, 2⟩] ⟨1, 7, 2⟩
      (by decide)⟩

/-- C8: delete_edges leaves every entry of an edge whose outbound vertex is
absent from the vertex tree untouched — the edge key, both range entries
and all its property entries are unchanged — and the call still succeeds
with no signal for the skipped edge. -/
theorem claim_C8 (s : SledHolder) (es : List Edge) (e : Edge) (_hmem : e ∈ es)
    (h : tcontains s.db e.outbound_id = false) :
    tget (SledTransaction.delete_edges s es).edges e = tget s.edges e ∧
    tget (SledTransaction.delete_edges s es).edge_ranges e = tget s.edge_ranges e ∧
    tget (SledTransaction.delete_edges s es).reversed_edge_ranges (reverse_edge e) =
      tget s.reversed_edge_ranges (reverse_edge e) ∧
    ∀ n, tget (SledTransaction.delete_edges s es).edge_properties (e, n) =
      tget s.edge_properties (e, n) := by
  have step : ∀ x b, b ∈ es →
      (x.db = s.db ∧ tget x.edges e = tget s.edges e ∧
        tget x.edge_ranges e = tget s.edge_ranges e ∧
        tget x.reversed_edge_ranges (reverse_edge e) =
          tget s.reversed_edge_ranges (reverse_edge e) ∧
        ∀ n, tget x.edge_properties (e, n) = tget s.edge_properties (e, n)) →
      ((if (VertexManager.get x b.outbound_id).isSome then EdgeManager.delete x b
          else x).db = s.db ∧
        tget (if (VertexManager.get x b.outbound_id).isSome then EdgeManager.delete x b
          else x).edges e = tget s.edges e ∧
        tget (if (VertexManager.get x b.outbound_id).isSome then EdgeManager.delete x b
          else x).edge_ranges e = tget s.edge_ranges e ∧
        tget (if (VertexManager.get x b.outbound_id).isSome then EdgeManager.delete x b
          else x).reversed_edge_ranges (reverse_edge e) =
          tget s.reversed_edge_ranges (reverse_edge e) ∧
        ∀ n, tget (if (VertexManager.get x b.outbound_id).isSome then
            EdgeManager.delete x b else x).edge_properties (e, n) =
          tget s.edge_properties (e, n)) := by
    intro x b _ hx
    by_cases hg : (VertexManager.get x b.outbound_id).isSome = true
    · have hbe : ¬ e = b := by
        intro hc
        have hgx : tcontains x.db e.outbound_id = true := by
          rw [hc]; exact hg
        rw [show x.db = s.db from hx.1] at hgx
        rw [h] at hgx
        exact Bool.noConfusion hgx
      rw [if_pos hg]
      refine ⟨?_, ?_, ?_, ?_, ?_⟩
      · rw [EdgeManager.em_delete_db]; exact hx.1
      · rw [EdgeManager.em_delete_edges_tree, tget_tremove, if_neg hbe]; exact hx.2.1
      · rw [EdgeManager.em_delete_edge_ranges, tget_tremove, if_neg hbe]; exact hx.2.2.1
      · rw [EdgeManager.em_delete_reversed_edge_ranges, tget_tremove]
        have hrev : ¬ reverse_edge e = reverse_edge b := by
          intro hc; exact hbe ((reverse_edge_inj e b).mp hc)
        rw [if_neg hrev]; exact hx.2.2.2.1
      · intro n
        rw [EdgeManager.em_tget_delete_edge_properties, if_neg hbe]
        exact hx.2.2.2.2 n
    · rw [if_neg hg]; exact hx
  have main := foldl_pres
    (fun (st : SledHolder) => st.db = s.db ∧ tget st.edges e = tget s.edges e ∧
      tget st.edge_ranges e = tget s.edge_ranges e ∧
      tget st.reversed_edge_ranges (reverse_edge e) =
        tget s.reversed_edge_ranges (reverse_edge e) ∧
      ∀ n, tget st.edge_properties (e, n) = tget s.edge_properties (e, n))
    (fun acc item => if (VertexManager.get acc item.outbound_id).isSome then
      EdgeManager.delete acc item else acc)
    es s step ⟨rfl, rfl, rfl, rfl, fun _ => rfl⟩
  exact ⟨main.2.1, main.2.2.1, main.2.2.2.1, main.2.2.2.2⟩

/-- Witness for C8: the store with vertices 1 and 2 and the edge (1, 7, 2),
asked to delete the edge (99, 7, 2) whose outbound vertex 99 is absent. -/
theorem claim_C8_witness :
    tget (SledTransaction.delete_edges (EdgeManager.set twoVertexState ⟨1, 7, 2⟩)
        [⟨99, 7, 2⟩]).edges ⟨99, 7, 2⟩ =
      tget (EdgeManager.set twoVertexState ⟨1, 7, 2⟩).edges ⟨99, 7, 2⟩ ∧
    tget (SledTransaction.delete_edges (EdgeManager.set twoVertexState ⟨1, 7, 2⟩)
        [⟨99, 7, 2⟩]).edge_ranges ⟨99, 7, 2⟩ =
      tget (EdgeManager.set twoVertexState ⟨1, 7, 2⟩).edge_ranges ⟨99, 7, 2⟩ ∧
    tget (SledTransaction.delete_edges (EdgeManager.set twoVertexState ⟨1, 7, 2⟩)
        [⟨99, 7, 2⟩]).reversed_edge_ranges (reverse_edge ⟨99, 7, 2⟩) =
      tget (EdgeManager.set twoVertexState ⟨1, 7, 2⟩).reversed_edge_ranges
        (reverse_edge ⟨99, 7, 2⟩) ∧
    ∀ n, tget (SledTransaction.delete_edges (EdgeManager.set twoVertexState ⟨1, 7, 2⟩)
        [⟨99, 7, 2⟩]).edge_properties (⟨99, 7, 2⟩, n) =
      tget (EdgeManager.set twoVertexState ⟨1, 7, 2⟩).edge_properties (⟨99, 7, 2⟩, n) :=
  claim_C8 (EdgeManager.set twoVertexState ⟨1, 7, 2⟩) [⟨99, 7, 2⟩] ⟨99, 7, 2⟩
    (List.Mem.head _) (by decide)

theorem tcontains_applyBatch_mono {K V : Type} [DecidableEq K] (b : Batch K V) :
    ∀ (t : Tree K V) (k : K), tcontains t k = true →
      tcontains (applyBatch t b) k = true := by
  induction b with
  | nil => intro t k h; exact h
  | cons p rest ih =>
      intro t k h
      apply ih
      rw [tcontains_tinsert, h]
      simp

theorem tcontains_applyBatch_of_mem {K V : Type} [DecidableEq K] (b : Batch K V) :
    ∀ (t : Tree K V) (k : K) (v : V), (k, v) ∈ b →
      tcontains (applyBatch t b) k = true := by
  induction b with
  | nil => intro t k v h; simp at h
  | cons p rest ih =>
      intro t k v h
      rcases List.mem_cons.mp h with h1 | h2
      · show tcontains (applyBatch (tinsert t p.1 p.2) rest) k = true
        apply tcontains_applyBatch_mono
        rw [← h1, tcontains_tinsert]
        simp
      · exact ih _ k v h2

theorem bulkAccum_eq (items : List BulkInsertItem) :
    SledTransaction.bulkAccum items =
      (⟨items.filterMap (fun i => match i with
          | BulkInsertItem.vertex v => some (v.id, v.t)
          | _ => none),
        items.filterMap (fun i => match i with
          | BulkInsertItem.edge e => some (e, ())
          | _ => none),
        items.filterMap (fun i => match i with
          | BulkInsertItem.edge e => some (e, ())
          | _ => none),
        items.filterMap (fun i => match i with
          | BulkInsertItem.edge e => some (reverse_edge e, ())
          | _ => none)⟩,
      items.filterMap (fun i => match i with
          | BulkInsertItem.vertexProperty id p v => some (id, p, v)
          | _ => none),
      items.filterMap (fun i => match i with
          | BulkInsertItem.edgeProperty e p v => some (e, p, v)
          | _ => none)) := by
  induction items with
  | nil => rfl
  | cons i rest ih =>
      cases i <;> simp [SledTransaction.bulkAccum, ih, List.filterMap_cons]

theorem edge_pairs_filterMap (items : List BulkInsertItem) :
    items.filterMap (fun i => match i with
        | BulkInsertItem.edge e => some (e, ())
        | _ => none) =
      (items.filterMap (fun i => match i with
          | BulkInsertItem.edge e => some e
          | _ => none)).map (fun e => (e, ())) := by
  induction items with
  | nil => rfl
  | cons i rest ih => cases i <;> simp [List.filterMap_cons, ih]

theorem rev_edge_pairs_filterMap (items : List BulkInsertItem) :
    items.filterMap (fun i => match i with
        | BulkInsertItem.edge e => some (reverse_edge e, ())
        | _ => none) =
      (items.filterMap (fun i => match i with
          | BulkInsertItem.edge e => some e
          | _ => none)).map (fun e => (reverse_edge e, ())) := by
  induction items with
  | nil => rfl
  | cons i rest ih => cases i <;> simp [List.filterMap_cons, ih]

theorem bulk_insert_edges_tree (s : SledHolder) (items : List BulkInsertItem) :
    (SledTransaction.bulk_insert s items).edges =
      applyBatch s.edges (SledTransaction.bulkAccum items).1.edge_creation_batch := by
  unfold SledTransaction.bulk_insert
  have h1 : ∀ (st : SledHolder) (l : List (Uuid × Identifier × JsonValue)),
      (l.foldl (fun st q => VertexPropertyManager.set st q.1 q.2.1 q.2.2) st).edges =
        st.edges := by
    intro st l
    apply foldl_pres (fun (x : SledHolder) => x.edges = st.edges)
    · intro x b _ hx
      rw [VertexPropertyManager.vpm_set_edges_tree]; exact hx
    · rfl
  have h2 : ∀ (st : SledHolder) (l : List (Edge × Identifier × JsonValue)),
      (l.foldl (fun st q => EdgePropertyManager.set st q.1 q.2.1 q.2.2) st).edges =
        st.edges := by
    intro st l
    apply foldl_pres (fun (x : SledHolder) => x.edges = st.edges)
    · intro x b _ hx
      rw [EdgePropertyManager.epm_set_edges_tree]; exact hx
    · rfl
  rw [show ∀ (x : SledHolder), (SledTransaction.sync x).edges = x.edges
    from fun _ => rfl, h2, h1]
  rfl

theorem bulk_insert_edge_ranges (s : SledHolder) (items : List BulkInsertItem) :
    (SledTransaction.bulk_insert s items).edge_ranges =
      applyBatch s.edge_ranges
        (SledTransaction.bulkAccum items).1.edge_range_creation_batch := by
  unfold SledTransaction.bulk_insert
  have h1 : ∀ (st : SledHolder) (l : List (Uuid × Identifier × JsonValue)),
      (l.foldl (fun st q =>
        VertexPropertyManager.set st q.1 q.2.1 q.2.2) st).edge_ranges =
        st.edge_ranges := by
    intro st l
    apply foldl_pres (fun (x : SledHolder) => x.edge_ranges = st.edge_ranges)
    · intro x b _ hx
      rw [VertexPropertyManager.vpm_set_edge_ranges]; exact hx
    · rfl
  have h2 : ∀ (st : SledHolder) (l : List (Edge × Identifier × JsonValue)),
      (l.foldl (fun st q =>
        EdgePropertyManager.set st q.1 q.2.1 q.2.2) st).edge_ranges =
        st.edge_ranges := by
    intro st l
    apply foldl_pres (fun (x : SledHolder) => x.edge_ranges = st.edge_ranges)
    · intro x b _ hx
      rw [EdgePropertyManager.epm_set_edge_ranges]; exact hx
    · rfl
  rw [show ∀ (x : SledHolder), (SledTransaction.sync x).edge_ranges = x.edge_ranges
    from fun _ => rfl, h2, h1]
  rfl

theorem bulk_insert_reversed_edge_ranges (s : SledHolder)
    (items : List BulkInsertItem) :
    (SledTransaction.bulk_insert s items).reversed_edge_ranges =
      applyBatch s.reversed_edge_ranges
        (SledTransaction.bulkAccum items).1.edge_range_rev_creation_batch := by
  unfold SledTransaction.bulk_insert
  have h1 : ∀ (st : SledHolder) (l : List (Uuid × Identifier × JsonValue)),
      (l.foldl (fun st q =>
        VertexPropertyManager.set st q.1 q.2.1 q.2.2) st).reversed_edge_ranges =
        st.reversed_edge_ranges := by
    intro st l
    apply foldl_pres
      (fun (x : SledHolder) => x.reversed_edge_ranges = st.reversed_edge_ranges)
    · intro x b _ hx
      rw [VertexPropertyManager.vpm_set_reversed_edge_ranges]; exact hx
    · rfl
  have h2 : ∀ (st : SledHolder) (l : List (Edge × Identifier × JsonValue)),
      (l.foldl (fun st q =>
        EdgePropertyManager.set st q.1 q.2.1 q.2.2) st).reversed_edge_ranges =
        st.reversed_edge_ranges := by
    intro st l
    apply foldl_pres
      (fun (x : SledHolder) => x.reversed_edge_ranges = st.reversed_edge_ranges)
    · intro x b _ hx
      rw [EdgePropertyManager.epm_set_reversed_edge_ranges]; exact hx
    · rfl
  rw [show ∀ (x : SledHolder),
      (SledTransaction.sync x).reversed_edge_ranges = x.reversed_edge_ranges
    from fun _ => rfl, h2, h1]
  rfl

/-- C6: bulk_insert is exactly the spec protocol — partition the items,
apply the batches in the order vertex tree, edges tree, edge_ranges tree,
reversed_edge_ranges tree, then the property writes, then sync — and it
never checks endpoint existence, so every bulk-inserted edge lands in the
edges tree and both range trees even when its endpoints were never
created. -/
theorem claim_C6 (s : SledHolder) (items : List BulkInsertItem) :
    SledTransaction.bulk_insert s items = bulkInsertSpec s items ∧
    ∀ e : Edge, BulkInsertItem.edge e ∈ items →
      tcontains (SledTransaction.bulk_insert s items).edges e = true ∧
      tcontains (SledTransaction.bulk_insert s items).edge_ranges e = true ∧
      tcontains (SledTransaction.bulk_insert s items).reversed_edge_ranges
        (reverse_edge e) = true := by
  constructor
  · unfold SledTransaction.bulk_insert bulkInsertSpec
    rw [bulkAccum_eq, edge_pairs_filterMap, rev_edge_pairs_filterMap]
    rfl
  · intro e hmem
    refine ⟨?_, ?_, ?_⟩
    · rw [bulk_insert_edges_tree, bulkAccum_eq]
      exact tcontains_applyBatch_of_mem _ _ _ ()
        (List.mem_filterMap.mpr ⟨BulkInsertItem.edge e, hmem, rfl⟩)
    · rw [bulk_insert_edge_ranges, bulkAccum_eq]
      exact tcontains_applyBatch_of_mem _ _ _ ()
        (List.mem_filterMap.mpr ⟨BulkInsertItem.edge e, hmem, rfl⟩)
    · rw [bulk_insert_reversed_edge_ranges, bulkAccum_eq]
      exact tcontains_applyBatch_of_mem _ _ _ ()
        (List.mem_filterMap.mpr ⟨BulkInsertItem.edge e, hmem, rfl⟩)

/-- Witness for C6: bulk insert of one edge whose endpoints were never
created, into the empty store. -/
theorem claim_C6_witness :
    tcontains (SledTransaction.bulk_insert emptyHolder
        [BulkInsertItem.edge ⟨3, 4, 5⟩]).edges ⟨3, 4, 5⟩ = true ∧
    tcontains (SledTransaction.bulk_insert emptyHolder
        [BulkInsertItem.edge ⟨3, 4, 5⟩]).edge_ranges ⟨3, 4, 5⟩ = true ∧
    tcontains (SledTransaction.bulk_insert emptyHolder
        [BulkInsertItem.edge ⟨3, 4, 5⟩]).reversed_edge_ranges
      (reverse_edge ⟨3, 4, 5⟩) = true :=
  (claim_C6 emptyHolder [BulkInsertItem.edge ⟨3, 4, 5⟩]).2 ⟨3, 4, 5⟩
    (List.Mem.head _)

theorem rangeConsistent_delete (x : SledHolder) (q : Edge) (h : RangeConsistent x) :
    RangeConsistent (EdgeManager.delete x q) := by
  intro e
  rw [EdgeManager.em_delete_edge_ranges, EdgeManager.em_delete_reversed_edge_ranges,
    tcontains_tremove, tcontains_tremove, h e]
  by_cases hq : e = q
  · simp [hq]
  · have hrq : ¬ reverse_edge e = reverse_edge q := fun hc =>
      hq ((reverse_edge_inj e q).mp hc)
    simp [hq, hrq]

theorem edgePropsOwned_delete (x : SledHolder) (q : Edge) (h : EdgePropsOwned x) :
    EdgePropsOwned (EdgeManager.delete x q) := by
  intro e n hsome
  rw [EdgeManager.em_tget_delete_edge_properties] at hsome
  by_cases heq : e = q
  · rw [if_pos heq] at hsome
    exact Bool.noConfusion hsome
  · rw [if_neg heq] at hsome
    rw [EdgeManager.em_delete_edge_ranges, tcontains_tremove]
    have := h e n hsome
    simp [heq, this]

theorem delFold_fwd_false {g : Edge × Unit → Edge} (L : List (Edge × Unit))
    (t : SledHolder) (e : Edge) (h : tcontains t.edge_ranges e = false) :
    tcontains ((L.foldl (fun acc p => EdgeManager.delete acc (g p)) t)).edge_ranges e =
      false := by
  apply foldl_pres (fun (x : SledHolder) => tcontains x.edge_ranges e = false)
  · intro x b _ hx
    rw [EdgeManager.em_delete_edge_ranges, tcontains_tremove, hx]
    simp
  · exact h

theorem delFold_rev_false {g : Edge × Unit → Edge} (L : List (Edge × Unit))
    (t : SledHolder) (q : Edge) (h : tcontains t.reversed_edge_ranges q = false) :
    tcontains ((L.foldl (fun acc p =>
      EdgeManager.delete acc (g p)) t)).reversed_edge_ranges q = false := by
  apply foldl_pres (fun (x : SledHolder) => tcontains x.reversed_edge_ranges q = false)
  · intro x b _ hx
    rw [EdgeManager.em_delete_reversed_edge_ranges, tcontains_tremove, hx]
    simp
  · exact h

theorem delFold_fwd_kill {g : Edge × Unit → Edge} (L : List (Edge × Unit))
    (t : SledHolder) (p0 : Edge × Unit) (hp : p0 ∈ L) :
    tcontains ((L.foldl (fun acc p => EdgeManager.delete acc (g p)) t)).edge_ranges
      (g p0) = false := by
  apply foldl_kills (fun (x : SledHolder) => tcontains x.edge_ranges (g p0) = false)
    _ p0 _ _ hp
  · intro x b _ hx
    rw [EdgeManager.em_delete_edge_ranges, tcontains_tremove, hx]
    simp
  · intro x
    rw [EdgeManager.em_delete_edge_ranges, tcontains_tremove]
    simp

theorem delFold_vertex_properties {g : Edge × Unit → Edge} (L : List (Edge × Unit))
    (t : SledHolder) :
    ((L.foldl (fun acc p => EdgeManager.delete acc (g p)) t)).vertex_properties =
      t.vertex_properties := by
  apply foldl_pres (fun (x : SledHolder) => x.vertex_properties = t.vertex_properties)
  · intro x b _ hx
    rw [EdgeManager.em_delete_vertex_properties]; exact hx
  · rfl

theorem delFold_rangeConsistent {g : Edge × Unit → Edge} (L : List (Edge × Unit))
    (t : SledHolder) (h : RangeConsistent t) :
    RangeConsistent ((L.foldl (fun acc p => EdgeManager.delete acc (g p)) t)) := by
  apply foldl_pres (fun (x : SledHolder) => RangeConsistent x)
  · intro x b _ hx
    exact rangeConsistent_delete x (g b) hx
  · exact h

theorem delFold_edgePropsOwned {g : Edge × Unit → Edge} (L : List (Edge × Unit))
    (t : SledHolder) (h : EdgePropsOwned t) :
    EdgePropsOwned ((L.foldl (fun acc p => EdgeManager.delete acc (g p)) t)) := by
  apply foldl_pres (fun (x : SledHolder) => EdgePropsOwned x)
  · intro x b _ hx
    exact edgePropsOwned_delete x (g b) hx
  · exact h

theorem deleteVertexProps_vertex_none (v : Uuid) (t : SledHolder) (n : Identifier) :
    tget (VertexManager.deleteVertexProps v t).vertex_properties (v, n) = none := by
  unfold VertexManager.deleteVertexProps VertexPropertyManager.iterate_for_owner
  cases hg : tget t.vertex_properties (v, n) with
  | none =>
      apply foldl_pres (fun (x : SledHolder) => tget x.vertex_properties (v, n) = none)
      · intro x b _ hx
        rw [VertexPropertyManager.vpm_delete_vertex_properties, tget_tremove]
        split
        · rfl
        · exact hx
      · exact hg
  | some val =>
      have hc : tcontains t.vertex_properties (v, n) = true := by
        simp [tcontains, hg]
      obtain ⟨v0, hmem⟩ := mem_of_tcontains hc
      have hmemf : ((v, n), v0) ∈
          t.vertex_properties.filter (fun p => decide (p.1.1 = v)) :=
        List.mem_filter.mpr ⟨hmem, by simp⟩
      apply foldl_kills (fun (x : SledHolder) => tget x.vertex_properties (v, n) = none)
        _ ((v, n), v0) _ _ hmemf
      · intro x b _ hx
        rw [VertexPropertyManager.vpm_delete_vertex_properties, tget_tremove]
        split
        · rfl
        · exact hx
      · intro x
        rw [VertexPropertyManager.vpm_delete_vertex_properties, tget_tremove]
        simp

theorem deleteVertexProps_edge_ranges (v : Uuid) (t : SledHolder) :
    (VertexManager.deleteVertexProps v t).edge_ranges = t.edge_ranges := by
  unfold VertexManager.deleteVertexProps
  apply foldl_pres (fun (x : SledHolder) => x.edge_ranges = t.edge_ranges)
  · intro x b _ hx
    rw [VertexPropertyManager.vpm_delete_edge_ranges]; exact hx
  · rfl

theorem deleteVertexProps_reversed_edge_ranges (v : Uuid) (t : SledHolder) :
    (VertexManager.deleteVertexProps v t).reversed_edge_ranges =
      t.reversed_edge_ranges := by
  unfold VertexManager.deleteVertexProps
  apply foldl_pres
    (fun (x : SledHolder) => x.reversed_edge_ranges = t.reversed_edge_ranges)
  · intro x b _ hx
    rw [VertexPropertyManager.vpm_delete_reversed_edge_ranges]; exact hx
  · rfl

theorem deleteVertexProps_edge_properties (v : Uuid) (t : SledHolder) :
    (VertexManager.deleteVertexProps v t).edge_properties = t.edge_properties := by
  unfold VertexManager.deleteVertexProps
  apply foldl_pres (fun (x : SledHolder) => x.edge_properties = t.edge_properties)
  · intro x b _ hx
    rw [VertexPropertyManager.vpm_delete_edge_properties]; exact hx
  · rfl

theorem vertex_cascade_main (v : Uuid) (t1 : SledHolder)
    (hrc1 : RangeConsistent t1) (hown1 : EdgePropsOwned t1) :
    (∀ e : Edge,
        tcontains (VertexManager.deleteIncomingEdges v
          (VertexManager.deleteOutgoingEdges v t1)).edge_ranges e = true →
        e.outbound_id ≠ v ∧ e.inbound_id ≠ v) ∧
    (VertexManager.deleteIncomingEdges v
        (VertexManager.deleteOutgoingEdges v t1)).vertex_properties =
      t1.vertex_properties ∧
    (∀ (e : Edge) (n : Identifier), e.outbound_id = v ∨ e.inbound_id = v →
        tget (VertexManager.deleteIncomingEdges v
          (VertexManager.deleteOutgoingEdges v t1)).edge_properties (e, n) = none) := by
  have hrc2 : RangeConsistent (VertexManager.deleteOutgoingEdges v t1) := by
    unfold VertexManager.deleteOutgoingEdges
    exact delFold_rangeConsistent _ _ hrc1
  have hown2 : EdgePropsOwned (VertexManager.deleteOutgoingEdges v t1) := by
    unfold VertexManager.deleteOutgoingEdges
    exact delFold_edgePropsOwned _ _ hown1
  have hown3 : EdgePropsOwned (VertexManager.deleteIncomingEdges v
      (VertexManager.deleteOutgoingEdges v t1)) := by
    unfold VertexManager.deleteIncomingEdges
    exact delFold_edgePropsOwned _ _ hown2
  have h2out : ∀ e : Edge, e.outbound_id = v →
      tcontains (VertexManager.deleteOutgoingEdges v t1).edge_ranges e = false := by
    intro e hev
    by_cases hc : tcontains t1.edge_ranges e = true
    · obtain ⟨val, hm⟩ := mem_of_tcontains hc
      have hmf : (e, val) ∈
          t1.edge_ranges.filter (fun p => decide (p.1.outbound_id = v)) :=
        List.mem_filter.mpr ⟨hm, by simp [hev]⟩
      unfold VertexManager.deleteOutgoingEdges
      exact delFold_fwd_kill (g := Prod.fst) _ _ (e, val) hmf
    · rw [Bool.not_eq_true] at hc
      unfold VertexManager.deleteOutgoingEdges
      exact delFold_fwd_false (g := Prod.fst) _ _ _ hc
  have h2mono : ∀ e : Edge,
      tcontains (VertexManager.deleteOutgoingEdges v t1).edge_ranges e = true →
      tcontains t1.edge_ranges e = true := by
    intro e h
    by_contra hc
    rw [Bool.not_eq_true] at hc
    unfold VertexManager.deleteOutgoingEdges at h
    rw [delFold_fwd_false (g := Prod.fst) _ _ _ hc] at h
    exact Bool.noConfusion h
  have h3mono : ∀ e : Edge,
      tcontains (VertexManager.deleteIncomingEdges v
        (VertexManager.deleteOutgoingEdges v t1)).edge_ranges e = true →
      tcontains (VertexManager.deleteOutgoingEdges v t1).edge_ranges e = true := by
    intro e h
    by_contra hc
    rw [Bool.not_eq_true] at hc
    unfold VertexManager.deleteIncomingEdges at h
    rw [delFold_fwd_false (g := fun p => reverse_edge p.1) _ _ _ hc] at h
    exact Bool.noConfusion h
  have hpart1 : ∀ e : Edge,
      tcontains (VertexManager.deleteIncomingEdges v
        (VertexManager.deleteOutgoingEdges v t1)).edge_ranges e = true →
      e.outbound_id ≠ v ∧ e.inbound_id ≠ v := by
    intro e hc3
    have hc2 := h3mono e hc3
    constructor
    · intro hev
      have hdead := h2out e hev
      rw [hdead] at hc2
      exact Bool.noConfusion hc2
    · intro hev
      have hrev : tcontains (VertexManager.deleteOutgoingEdges
          v t1).reversed_edge_ranges (reverse_edge e) = true := by
        rw [← hrc2 e]; exact hc2
      obtain ⟨val, hm⟩ := mem_of_tcontains hrev
      have hmf : (reverse_edge e, val) ∈
          (VertexManager.deleteOutgoingEdges v t1).reversed_edge_ranges.filter
            (fun p => decide (p.1.outbound_id = v)) :=
        List.mem_filter.mpr ⟨hm, by simp [reverse_edge, hev]⟩
      have hkill := delFold_fwd_kill (g := fun p => reverse_edge p.1)
        ((VertexManager.deleteOutgoingEdges v t1).reversed_edge_ranges.filter
          (fun p => decide (p.1.outbound_id = v)))
        (VertexManager.deleteOutgoingEdges v t1) (reverse_edge e, val) hmf
      have hkill2 : tcontains (VertexManager.deleteIncomingEdges v
          (VertexManager.deleteOutgoingEdges v t1)).edge_ranges e = false := by
        unfold VertexManager.deleteIncomingEdges
        simpa using hkill
      rw [hkill2] at hc3
      exact Bool.noConfusion hc3
  refine ⟨hpart1, ?_, ?_⟩
  · unfold VertexManager.deleteIncomingEdges VertexManager.deleteOutgoingEdges
    rw [delFold_vertex_properties, delFold_vertex_properties]
  · intro e n hev
    cases hq : tget (VertexManager.deleteIncomingEdges v
        (VertexManager.deleteOutgoingEdges v t1)).edge_properties (e, n) with
    | none => rfl
    | some val =>
        exfalso
        have hsome : (tget (VertexManager.deleteIncomingEdges v
            (VertexManager.deleteOutgoingEdges v t1)).edge_properties (e, n)).isSome =
            true := by
          rw [hq]; rfl
        have hc3 := hown3 e n hsome
        have hne := hpart1 e hc3
        rcases hev with hev | hev
        · exact hne.1 hev
        · exact hne.2 hev

/-- C1: deleting a vertex cascades completely — in a store whose range
trees agree and whose edge properties all belong to stored edges, after
VertexManager delete of v no edge incident to v survives in all_edges, no
vertex property owned by v survives, and no edge property owned by an edge
incident to v survives; the forward and reversed range scans under prefix
Uuid(v) feed each found edge to EdgeManager delete. -/
theorem claim_C1 (s : SledHolder) (v : Uuid)
    (hrc : RangeConsistent s) (hown : EdgePropsOwned s) :
    (∀ e ∈ SledTransaction.all_edges (VertexManager.delete s v),
        e.outbound_id ≠ v ∧ e.inbound_id ≠ v) ∧
    (∀ n : Identifier, tget (VertexManager.delete s v).vertex_properties (v, n) =
      none) ∧
    (∀ (e : Edge) (n : Identifier), e.outbound_id = v ∨ e.inbound_id = v →
        tget (VertexManager.delete s v).edge_properties (e, n) = none) := by
  have hrc1 : RangeConsistent
      (VertexManager.deleteVertexProps v { s with db := tremove s.db v }) := by
    intro e
    rw [deleteVertexProps_edge_ranges, deleteVertexProps_reversed_edge_ranges]
    exact hrc e
  have hown1 : EdgePropsOwned
      (VertexManager.deleteVertexProps v { s with db := tremove s.db v }) := by
    intro e n hsome
    rw [deleteVertexProps_edge_properties] at hsome
    rw [deleteVertexProps_edge_ranges]
    exact hown e n hsome
  have hmain := vertex_cascade_main v
    (VertexManager.deleteVertexProps v { s with db := tremove s.db v }) hrc1 hown1
  have hdeleq : VertexManager.delete s v =
      VertexManager.deleteIncomingEdges v (VertexManager.deleteOutgoingEdges v
        (VertexManager.deleteVertexProps v { s with db := tremove s.db v })) := rfl
  refine ⟨?_, ?_, ?_⟩
  · intro e hmem
    rw [hdeleq] at hmem
    unfold SledTransaction.all_edges at hmem
    obtain ⟨p, hp, hpe⟩ := List.mem_map.mp hmem
    have hc : tcontains (VertexManager.deleteIncomingEdges v
        (VertexManager.deleteOutgoingEdges v (VertexManager.deleteVertexProps v
          { s with db := tremove s.db v }))).edge_ranges e = true := by
      cases p with
      | mk pk pv =>
          have hpk : pk = e := hpe
          rw [← hpk]
          exact tcontains_of_mem hp
    exact hmain.1 e hc
  · intro n
    rw [hdeleq, hmain.2.1]
    exact deleteVertexProps_vertex_none v _ n
  · intro e n hev
    rw [hdeleq]
    exact hmain.2.2 e n hev

theorem tcontains_singleton {K V : Type} [DecidableEq K] (k k' : K) (v : V) :
    tcontains [(k, v)] k' = decide (k = k') := by
  by_cases h : k = k' <;> simp [tcontains, tget, h]

/-- Witness for C1: delete vertex 1 from the store holding vertices 1 and 2,
the edge (1, 7, 2), a vertex property on 1 and an edge property on the
edge. -/
theorem claim_C1_witness :
    (∀ e ∈ SledTransaction.all_edges (VertexManager.delete
        (EdgePropertyManager.set (VertexPropertyManager.set
          (EdgeManager.set twoVertexState ⟨1, 7, 2⟩) 1 5 30) ⟨1, 7, 2⟩ 6 42) 1),
      e.outbound_id ≠ 1 ∧ e.inbound_id ≠ 1) ∧
    (∀ n : Identifier, tget (VertexManager.delete
        (EdgePropertyManager.set (VertexPropertyManager.set
          (EdgeManager.set twoVertexState ⟨1, 7, 2⟩) 1 5 30) ⟨1, 7, 2⟩ 6 42)
        1).vertex_properties (1, n) = none) ∧
    (∀ (e : Edge) (n : Identifier), e.outbound_id = 1 ∨ e.inbound_id = 1 →
        tget (VertexManager.delete
          (EdgePropertyManager.set (VertexPropertyManager.set
            (EdgeManager.set twoVertexState ⟨1, 7, 2⟩) 1 5 30) ⟨1, 7, 2⟩ 6 42)
          1).edge_properties (e, n) = none) :=
  claim_C1
    (EdgePropertyManager.set (VertexPropertyManager.set
      (EdgeManager.set twoVertexState ⟨1, 7, 2⟩) 1 5 30) ⟨1, 7, 2⟩ 6 42) 1
    (fun e => by
      show tcontains [((⟨1, 7, 2⟩ : Edge), ())] e =
        tcontains [((⟨2, 7, 1⟩ : Edge), ())] (reverse_edge e)
      rw [tcontains_singleton, tcontains_singleton]
      by_cases h1 : (⟨1, 7, 2⟩ : Edge) = e
      · rw [← h1]; decide
      · have h2 : ¬ ((⟨2, 7, 1⟩ : Edge) = reverse_edge e) := by
          intro hc
          apply h1
          have := congrArg reverse_edge hc
          simpa using this
        simp [h1, h2])
    (fun e n hsome => by
      have hsome2 : (tget [(((⟨1, 7, 2⟩ : Edge), (6 : Identifier)),
          (42 : JsonValue))] (e, n)).isSome = true := hsome
      show tcontains [((⟨1, 7, 2⟩ : Edge), ())] e = true
      by_cases h : ((⟨1, 7, 2⟩ : Edge), (6 : Identifier)) = (e, n)
      · have he : (⟨1, 7, 2⟩ : Edge) = e := congrArg Prod.fst h
        rw [tcontains_singleton, he]
        simp
      · rw [show tget [(((⟨1, 7, 2⟩ : Edge), (6 : Identifier)),
            (42 : JsonValue))] (e, n) = none by simp [tget, h]] at hsome2
        exact Bool.noConfusion hsome2)

end IndradbSled
